import Mathlib

/-!
# API Extractor: type database and type-entry naming

A shallow embedding of `typedatabase.cpp` (the registry of type entries, the
flags and template indexes, the rejection rules, the suppression patterns, the
function modifications, the required imports, the lookup and memo of
typesystem files and the registry instance) together with the naming functions
of `TypeEntry` that the registry and the naming tests rely on.

Conventions of the embedding:

* a `QString` is a `String`;
* a pointer `T*` is an `Option T`, the null pointer being `none`;
* a `QList<T>` is a `List T`;
* a `QHash<QString, V>` is the list of its (key, value) items in the order in
  which the hash iterates over them (see `QHash`).
-/

namespace ApiExtractor

/-! ## Qt containers and strings -/

/-- Model of `QString::endsWith`: `name` is a suffix of `key`. -/
def endsWith (key name : String) : Bool :=
  name.data.isSuffixOf key.data

/-- Model of `QHash<QString, V>`: the items of the hash, in the order in which
the hash iterates over them. Qt leaves that order unspecified; it is fixed for
a given hash, and the lookups below are stated for every order. -/
structure QHash (V : Type) where
  items : List (String × V)
  deriving DecidableEq, Repr

namespace QHash

variable {V : Type}

/-- Model of `QHash::keys()`. -/
def keys (h : QHash V) : List String :=
  h.items.map Prod.fst

/-- Model of `QHash::contains(key)`. -/
def contains (h : QHash V) (key : String) : Bool :=
  h.keys.contains key

/-- Model of `QHash::value(key)`: the value stored under the key, and a
default-constructed value (`dflt`) when the key is not in the hash. -/
def value (h : QHash V) (key : String) (dflt : V) : V :=
  (h.items.lookup key).getD dflt

/-- Model of `QHash::insert(key, v)`, which is also what an assignment through
`operator[]` does: the value of an existing key is replaced, a new key is
added. The place a new key takes in the iteration order is not specified by
Qt; here it comes last. -/
def insert (h : QHash V) (key : String) (v : V) : QHash V :=
  if h.contains key then
    ⟨h.items.map (fun p => if p.1 = key then (p.1, v) else p)⟩
  else
    ⟨h.items ++ [(key, v)]⟩

/-- Model of `QHash::size()`. -/
def size (h : QHash V) : Nat :=
  h.items.length

end QHash

/-! ### Qt string functions -/

/-- Replacement of every occurrence of `before` by `after` in a list of
characters, from left to right and without overlap; the first argument counts
the characters of a matched occurrence still to be skipped. -/
def replaceChars (before after : List Char) : Nat → List Char → List Char
  | _, [] => []
  | skip + 1, _ :: cs => replaceChars before after skip cs
  | 0, c :: cs =>
    if before.isPrefixOf (c :: cs) then
      after ++ replaceChars before after (before.length - 1) cs
    else c :: replaceChars before after 0 cs

/-- Model of `QString::replace(before, after)` for a non-empty `before`, which
is all the source passes; with an empty `before` the string is left as it
is. -/
def qReplace (s before after : String) : String :=
  if before.data = [] then s else ⟨replaceChars before.data after.data 0 s.data⟩

/-- Model of `QString::split(sep, QString::SkipEmptyParts)` for a separator of
one character: the parts between the separators, the empty ones left out. -/
def splitSkipEmptyParts (s : String) (sep : Char) : List String :=
  ((s.data.splitOn sep).filter (fun part => !part.isEmpty)).map String.mk

/-- Model of `QString::split(sep)` for a separator of one character: the parts
between the separators, the empty ones kept. -/
def splitKeepEmptyParts (s : String) (sep : Char) : List String :=
  (s.data.splitOn sep).map String.mk

/-- The first index at which `sub` starts in a list of characters, if any. -/
def findChars (sub : List Char) : List Char → Option Nat
  | [] => if sub.isEmpty then some 0 else none
  | c :: cs =>
    if sub.isPrefixOf (c :: cs) then some 0 else (findChars sub cs).map (fun i => i + 1)

/-- Model of `QString::indexOf(str, start)` for `start` not negative: the first
index from `start` on at which `str` occurs; the result `-1` of Qt is
`none`. -/
def indexOf (s str : String) (start : Nat) : Option Nat :=
  if start ≤ s.length then
    (findChars str.data (s.data.drop start)).map (fun i => i + start)
  else none

/-- The last index at which the character occurs in a list of characters, if
any. -/
def lastIndexOfChars (c : Char) : List Char → Option Nat
  | [] => none
  | x :: xs =>
    match lastIndexOfChars c xs with
    | some i => some (i + 1)
    | none => if x = c then some 0 else none

/-- Model of `QString::lastIndexOf(ch)`; the result `-1` of Qt is `none`. -/
def lastIndexOf (s : String) (c : Char) : Option Nat :=
  lastIndexOfChars c s.data

/-- Model of `QString::right(n)`: the last `n` characters of the string. -/
def right (s : String) (n : Nat) : String :=
  ⟨s.data.drop (s.length - n)⟩

/-- The first index at which the character occurs in a list of characters,
if any. -/
def indexOfChars (c : Char) : List Char → Option Nat
  | [] => none
  | x :: xs => if x = c then some 0 else (indexOfChars c xs).map (fun i => i + 1)

/-- Model of `QString::indexOf(ch)`; the result `-1` of Qt is `none`. -/
def indexOfChar (s : String) (c : Char) : Option Nat :=
  indexOfChars c s.data

/-- Model of `QString::left(n)`: the first `n` characters of the string. -/
def left (s : String) (n : Nat) : String :=
  ⟨s.data.take n⟩

/-- Model of the non-const `QHash::operator[]` read as a value: the value
stored under the key and the hash unchanged when the key is in the hash;
otherwise a default-constructed value (`dflt`), which is inserted under the
key. -/
def QHash.subscript {V : Type} (h : QHash V) (key : String) (dflt : V) : V × QHash V :=
  if h.contains key then (h.value key dflt, h) else (dflt, h.insert key dflt)

/-! ## Type entries (`typesystem.h`) -/

/-- Modelled from the spec: the two complex kinds `Complex(Value|Object)` of
the entity model; `typesystem.h`, which declares the kinds, is not among the
sources. -/
inductive ComplexKind where
  | Value
  | Object
  deriving DecidableEq, Repr

/-- Modelled from the spec: the `kind` of an entity, one of Primitive,
Complex(Value|Object), Namespace, Enum, Flags, Container, Function, Template,
Void, Varargs; the enumeration `TypeEntry::Type` of `typesystem.h` is not among
the sources. -/
inductive Kind where
  | Primitive
  | Complex (c : ComplexKind)
  | Namespace
  | Enum
  | Flags
  | Container
  | Function
  | Template
  | Void
  | Varargs
  deriving DecidableEq, Repr

/-- Modelled from the spec: the fields of one entity of the entity model
(`cppName`, `kind`, `generate`, `targetRename`), with the two members of the
subclasses of `TypeEntry` that `typedatabase.cpp` reads:
`PrimitiveTypeEntry::preferredTargetLangType()` and
`FlagsTypeEntry::originalName()`. The class `TypeEntry` of `typesystem.h` is
not among the sources. -/
structure EntryData where
  cppName : String
  kind : Kind
  generate : Bool
  targetRename : Option String
  preferredTargetLangType : Bool
  originalName : String
  deriving DecidableEq, Repr

/-- Modelled from the spec: an entity with its `enclosingScope` chain. The
chain is finite and acyclic and ends at a scope-less root, so an entity is
either a root or nested in a parent entity. The class `TypeEntry` of
`typesystem.h` is not among the sources. -/
inductive TypeEntry where
  | root (d : EntryData)
  | nested (parent : TypeEntry) (d : EntryData)
  deriving DecidableEq, Repr

namespace TypeEntry

/-- The fields of the entity itself. -/
def data : TypeEntry → EntryData
  | root d => d
  | nested _ d => d

/-- Modelled from the spec: `enclosingScope`, the optional parent entity. -/
def enclosingScope : TypeEntry → Option TypeEntry
  | root _ => none
  | nested p _ => some p

/-- Modelled from the spec: `kind` (`TypeEntry::type()`). -/
def type (e : TypeEntry) : Kind :=
  e.data.kind

/-- Modelled from the spec: `generate` (`TypeEntry::generateCode()`). -/
def generateCode (e : TypeEntry) : Bool :=
  e.data.generate

/-- Modelled from the spec: kind test `TypeEntry::isPrimitive()`. -/
def isPrimitive (e : TypeEntry) : Bool :=
  e.type = Kind.Primitive

/-- Modelled from the spec: kind test `TypeEntry::isComplex()`, the kinds
`Complex(Value|Object)`. -/
def isComplex (e : TypeEntry) : Bool :=
  match e.type with
  | Kind.Complex _ => true
  | _ => false

/-- Modelled from the spec: kind test `TypeEntry::isObject()`. -/
def isObject (e : TypeEntry) : Bool :=
  e.type = Kind.Complex ComplexKind.Object

/-- Modelled from the spec: kind test `TypeEntry::isNamespace()`. -/
def isNamespace (e : TypeEntry) : Bool :=
  e.type = Kind.Namespace

/-- Modelled from the spec: kind test `TypeEntry::isContainer()`. -/
def isContainer (e : TypeEntry) : Bool :=
  e.type = Kind.Container

/-- Modelled from the spec: kind test `TypeEntry::isFlags()`. -/
def isFlags (e : TypeEntry) : Bool :=
  e.type = Kind.Flags

/-- Modelled from the spec: `PrimitiveTypeEntry::preferredTargetLangType()`,
the flag of a primitive that is the preferred target representation. -/
def preferredTargetLangType (e : TypeEntry) : Bool :=
  e.data.preferredTargetLangType

/-- Modelled from the spec: `FlagsTypeEntry::originalName()`, the origin name
under which a flags entity is indexed. -/
def originalName (e : TypeEntry) : String :=
  e.data.originalName

/-- Modelled from the spec: `shortName()` is `cppName`, or `targetRename` if
set, irrespective of `generate`. -/
def shortName (e : TypeEntry) : String :=
  e.data.targetRename.getD e.data.cppName

/-- The enclosing-scope chain of an entity, root first and the entity itself
last. -/
def scopeChain : TypeEntry → List TypeEntry
  | root d => [root d]
  | nested p d => scopeChain p ++ [nested p d]

/-- Modelled from the spec: `qualifiedCppName()` is the `cppName` of every
ancestor, root to self, joined by the C++ scope separator; hidden ancestors
are included. `TypeEntry::qualifiedCppName` of `typesystem.h` is not among the
sources. -/
def qualifiedCppName (e : TypeEntry) : String :=
  String.intercalate "::" (e.scopeChain.map (fun a => a.data.cppName))

/-- Modelled from the spec: `targetShortName()` (`TypeEntry::targetLangName`)
is the empty string if `generate` is false; otherwise the possibly renamed
`cppName`, prefixed by the parent's `targetShortName()` and a dot when the
parent's `targetShortName()` is non-empty. `TypeEntry::targetLangName` of
`typesystem.h` is not among the sources. -/
def targetLangName : TypeEntry → String
  | root d => if d.generate then (root d).shortName else ""
  | nested p d =>
    if d.generate then
      if targetLangName p = "" then (nested p d).shortName
      else targetLangName p ++ "." ++ (nested p d).shortName
    else ""

/-- Modelled from the spec: `qualifiedTargetName()`
(`TypeEntry::qualifiedTargetLangName`) is the empty string if
`targetShortName()` is; else the package, a dot and `targetShortName()`, or
just `targetShortName()` if there is no package. The package is the attribute
of the document root. `TypeEntry::qualifiedTargetLangName` of `typesystem.h`
is not among the sources. -/
def qualifiedTargetLangName (package : Option String) (e : TypeEntry) : String :=
  if e.targetLangName = "" then ""
  else
    match package with
    | some pkg => pkg ++ "." ++ e.targetLangName
    | none => e.targetLangName

/-- The entities of the scope chain that are visible in the target language
from the entity: the trailing run of generated entities of the chain, the
entity itself last. It is empty for a hidden entity and stops below the
nearest hidden ancestor. -/
def visibleChain (e : TypeEntry) : List TypeEntry :=
  (e.scopeChain.reverse.takeWhile TypeEntry.generateCode).reverse

/-- The entity with the `generate` flag of every entity of its scope chain
recomputed by `f`; nothing else is changed. -/
def withGenerate (f : EntryData → Bool) : TypeEntry → TypeEntry
  | root d => root { d with generate := f d }
  | nested p d => nested (withGenerate f p) { d with generate := f d }

end TypeEntry

/-! ## The registry state (`TypeDatabase::TypeDatabasePrivate`) -/

/-- Modelled from the spec: a rejection rule, with the four members
`addRejection` fills; the struct `TypeRejection` of `typesystem.h` is not
among the sources. -/
structure TypeRejection where
  class_name : String
  function_name : String
  field_name : String
  enum_name : String
  deriving DecidableEq, Repr

/-- Modelled from the spec: a template entry, indexed by its name; the class
`TemplateEntry` of `typesystem.h` is not among the sources. -/
structure TemplateEntry where
  name : String
  deriving DecidableEq, Repr

/-- Modelled from the spec: an injected function, looked up by its name; the
class `AddedFunction` of `typesystem.h` is not among the sources. -/
structure AddedFunction where
  name : String
  deriving DecidableEq, Repr

/-- Modelled from the spec: a function modification, looked up by its exact
signature; `content` stands for the rest of the record, which the registry
does not read. The struct `FunctionModification` of `typesystem.h` is not
among the sources. -/
structure FunctionModification where
  signature : String
  content : String
  deriving DecidableEq, Repr

/-- The state of the registry: the members of
`TypeDatabase::TypeDatabasePrivate`. `apiVersion`, a `double` in the source,
is kept as a rational. -/
structure TypeDatabase where
  suppressWarnings : Bool
  entries : QHash (List (Option TypeEntry))
  flagsEntries : QHash (Option TypeEntry)
  templates : QHash (Option TemplateEntry)
  suppressedWarnings : List String
  globalUserFunctions : List AddedFunction
  functionMods : List FunctionModification
  requiredTargetImports : List String
  typesystemPaths : List String
  parsedTypesystemFiles : QHash Bool
  rejections : List TypeRejection
  rebuildClasses : List String
  apiVersion : Rat
  dropTypeEntries : List String

namespace TypeDatabase

/-- A registry with every member empty, suppression enabled and API version
zero: the state the constructor starts from before it adds the built-in
entries. -/
def empty : TypeDatabase where
  suppressWarnings := true
  entries := ⟨[]⟩
  flagsEntries := ⟨[]⟩
  templates := ⟨[]⟩
  suppressedWarnings := []
  globalUserFunctions := []
  functionMods := []
  requiredTargetImports := []
  typesystemPaths := []
  parsedTypesystemFiles := ⟨[]⟩
  rejections := []
  rebuildClasses := []
  apiVersion := 0
  dropTypeEntries := []

/-! ### Lookup of type entries -/

/-- `TypeDatabase::findTypes`: the sequence stored under the exact key, empty
when the key is absent. -/
def findTypes (db : TypeDatabase) (name : String) : List (Option TypeEntry) :=
  db.entries.value name []

/-- The `foreach` loop of `TypeDatabase::findType`: the first entry that is not
null and is either not a primitive or a primitive with
`preferredTargetLangType()`; null when the loop runs to its end. -/
def findTypeLoop : List (Option TypeEntry) → Option TypeEntry
  | [] => none
  | none :: rest => findTypeLoop rest
  | some entry :: rest =>
    if !entry.isPrimitive || entry.preferredTargetLangType then some entry
    else findTypeLoop rest

/-- `TypeDatabase::findType`. -/
def findType (db : TypeDatabase) (name : String) : Option TypeEntry :=
  findTypeLoop (db.findTypes name)

/-- `TypeDatabase::findFunctionType`. -/
def findFunctionType (db : TypeDatabase) (name : String) : Option TypeEntry :=
  match db.findType name with
  | some entry => if entry.type = Kind.Function then some entry else none
  | none => none

/-- `TypeDatabase::findComplexType`. -/
def findComplexType (db : TypeDatabase) (name : String) : Option TypeEntry :=
  match db.findType name with
  | some entry => if entry.isComplex then some entry else none
  | none => none

/-- `TypeDatabase::findObjectType`. -/
def findObjectType (db : TypeDatabase) (name : String) : Option TypeEntry :=
  match db.findType name with
  | some entry => if entry.isObject then some entry else none
  | none => none

/-- `TypeDatabase::findNamespaceType`. -/
def findNamespaceType (db : TypeDatabase) (name : String) : Option TypeEntry :=
  match db.findType name with
  | some entry => if entry.isNamespace then some entry else none
  | none => none

/-- `TypeDatabase::addType`: `m_d->entries[e->qualifiedCppName()].append(e)`.
The entry is dereferenced, so it is not null. -/
def addType (db : TypeDatabase) (e : TypeEntry) : TypeDatabase :=
  { db with
    entries :=
      db.entries.insert e.qualifiedCppName
        (db.entries.value e.qualifiedCppName [] ++ [some e]) }

/-- Modelled from the spec: the built-in Void entity the registry is seeded
with (`VoidTypeEntry` of `typesystem.h`, not among the sources), under the
name `void`. -/
def voidTypeEntry : TypeEntry :=
  TypeEntry.root
    { cppName := "void", kind := Kind.Void, generate := true, targetRename := none,
      preferredTargetLangType := false, originalName := "" }

/-- Modelled from the spec: the built-in Varargs entity the registry is seeded
with (`VarargsTypeEntry` of `typesystem.h`, not among the sources), under the
name `...`. -/
def varargsTypeEntry : TypeEntry :=
  TypeEntry.root
    { cppName := "...", kind := Kind.Varargs, generate := true, targetRename := none,
      preferredTargetLangType := false, originalName := "" }

/-- `TypeDatabase::TypeDatabase()`: suppression enabled, API version zero, and
the two built-in entries added with `addType`. -/
def construct : TypeDatabase :=
  (empty.addType voidTypeEntry).addType varargsTypeEntry

/-! ### The flags index -/

/-- `TypeDatabase::addFlagsType`:
`m_d->flagsEntries[fte->originalName()] = fte`. The entry is dereferenced, so
it is not null. -/
def addFlagsType (db : TypeDatabase) (fte : TypeEntry) : TypeDatabase :=
  { db with flagsEntries := db.flagsEntries.insert fte.originalName (some fte) }

/-- The `foreach` loop of `TypeDatabase::findFlagsType` over the keys of the
flags index: at the first key that ends with the name, the value stored under
that key is taken and the loop is left. -/
def findFlagsTypeLoop (flags : QHash (Option TypeEntry)) (name : String) :
    List String → Option TypeEntry
  | [] => none
  | key :: rest =>
    if endsWith key name then flags.value key none
    else findFlagsTypeLoop flags name rest

/-- `TypeDatabase::findFlagsType`. The result of `findType` is cast to
`FlagsTypeEntry*` and kept whenever it is not null; only a null result goes on
to the flags index. -/
def findFlagsType (db : TypeDatabase) (name : String) : Option TypeEntry :=
  match db.findType name with
  | some fte => some fte
  | none =>
    match db.flagsEntries.value name none with
    | some fte => some fte
    | none => findFlagsTypeLoop db.flagsEntries name db.flagsEntries.keys

/-! ### Rejection rules -/

/-- `TypeDatabase::addRejection`. -/
def addRejection (db : TypeDatabase) (className functionName fieldName enumName : String) :
    TypeDatabase :=
  { db with
    rejections :=
      db.rejections ++
        [{ class_name := className, function_name := functionName,
           field_name := fieldName, enum_name := enumName }] }

/-- `TypeDatabase::setRebuildClasses`. -/
def setRebuildClasses (db : TypeDatabase) (cls : List String) : TypeDatabase :=
  { db with rebuildClasses := cls }

/-- The `foreach` loop of `TypeDatabase::isClassRejected` over the rejection
rules. -/
def isClassRejectedLoop (className : String) : List TypeRejection → Bool
  | [] => false
  | r :: rest =>
    if r.class_name = className ∧ r.function_name = "*" ∧ r.field_name = "*"
        ∧ r.enum_name = "*" then true
    else isClassRejectedLoop className rest

/-- `TypeDatabase::isClassRejected`. -/
def isClassRejected (db : TypeDatabase) (className : String) : Bool :=
  if !db.rebuildClasses.isEmpty then !db.rebuildClasses.contains className
  else isClassRejectedLoop className db.rejections

/-- The `foreach` loop of `TypeDatabase::isEnumRejected`. -/
def isEnumRejectedLoop (className enumName : String) : List TypeRejection → Bool
  | [] => false
  | r :: rest =>
    if r.enum_name = enumName ∧ (r.class_name = className ∨ r.class_name = "*") then true
    else isEnumRejectedLoop className enumName rest

/-- `TypeDatabase::isEnumRejected`. -/
def isEnumRejected (db : TypeDatabase) (className enumName : String) : Bool :=
  isEnumRejectedLoop className enumName db.rejections

/-- The `foreach` loop of `TypeDatabase::isFunctionRejected`. -/
def isFunctionRejectedLoop (className functionName : String) : List TypeRejection → Bool
  | [] => false
  | r :: rest =>
    if r.function_name = functionName ∧ (r.class_name = className ∨ r.class_name = "*") then
      true
    else isFunctionRejectedLoop className functionName rest

/-- `TypeDatabase::isFunctionRejected`. -/
def isFunctionRejected (db : TypeDatabase) (className functionName : String) : Bool :=
  isFunctionRejectedLoop className functionName db.rejections

/-- The `foreach` loop of `TypeDatabase::isFieldRejected`. -/
def isFieldRejectedLoop (className fieldName : String) : List TypeRejection → Bool
  | [] => false
  | r :: rest =>
    if r.field_name = fieldName ∧ (r.class_name = className ∨ r.class_name = "*") then true
    else isFieldRejectedLoop className fieldName rest

/-- `TypeDatabase::isFieldRejected`. -/
def isFieldRejected (db : TypeDatabase) (className fieldName : String) : Bool :=
  isFieldRejectedLoop className fieldName db.rejections

/-! ### Suppressed warnings -/

/-- `TypeDatabase::setSuppressWarnings`. -/
def setSuppressWarnings (db : TypeDatabase) (value : Bool) : TypeDatabase :=
  { db with suppressWarnings := value }

/-- `TypeDatabase::addSuppressedWarning`. -/
def addSuppressedWarning (db : TypeDatabase) (s : String) : TypeDatabase :=
  { db with suppressedWarnings := db.suppressedWarnings ++ [s] }

/-- The text that stands for an escaped asterisk while a pattern is split. -/
def placeHolder : String :=
  "&place_holder_for_asterisk;"

/-- The segments of a suppression pattern as `isSuppressedWarning` searches
them: every escaped asterisk is replaced by the place holder, the result is
split at the asterisks left, empty parts skipped, and in each segment the
place holder is replaced by an asterisk. -/
def warningSegments (_warning : String) : List String :=
  (splitSkipEmptyParts (qReplace _warning "\\*" placeHolder) '*').map
    (fun seg => qReplace seg placeHolder "*")

/-- The `while` loop of `TypeDatabase::isSuppressedWarning`, entered with the
position of the previous segment and the segments still to be searched: it
stops without a match when the position is `-1`, returns true when no segment
is left, and otherwise searches the next segment from the position of the
previous one. -/
def isSuppressedWarningLoop (s : String) : Option Nat → List String → Bool
  | none, _ => false
  | some _, [] => true
  | some pos, seg :: rest => isSuppressedWarningLoop s (indexOf s seg pos) rest

/-- The body of the `foreach` loop of `TypeDatabase::isSuppressedWarning` for
one stored pattern: true when the body returns true, false when it goes on to
the next pattern (no segments, or a segment not found). -/
def matchesSegments (s : String) : List String → Bool
  | [] => false
  | seg :: rest => isSuppressedWarningLoop s (indexOf s seg 0) rest

/-- The `foreach` loop of `TypeDatabase::isSuppressedWarning` over the stored
patterns. -/
def isSuppressedWarningPatterns (s : String) : List String → Bool
  | [] => false
  | _warning :: rest =>
    if matchesSegments s (warningSegments _warning) then true
    else isSuppressedWarningPatterns s rest

/-- `TypeDatabase::isSuppressedWarning`. -/
def isSuppressedWarning (db : TypeDatabase) (s : String) : Bool :=
  if !db.suppressWarnings then false
  else isSuppressedWarningPatterns s db.suppressedWarnings

/-! ### Required imports and typesystem files -/

/-- `TypeDatabase::requiredTargetImports`. -/
def getRequiredTargetImports (db : TypeDatabase) : List String :=
  db.requiredTargetImports

/-- `TypeDatabase::addRequiredTargetImport`. -/
def addRequiredTargetImport (db : TypeDatabase) (moduleName : String) : TypeDatabase :=
  if !db.requiredTargetImports.contains moduleName then
    { db with requiredTargetImports := db.requiredTargetImports ++ [moduleName] }
  else db

/-- `TypeDatabase::addTypesystemPath`; `pathSplitter` is the character chosen
by the platform test `Q_OS_WIN32` (`;` on Windows, `:` elsewhere). -/
def addTypesystemPath (pathSplitter : Char) (db : TypeDatabase) (typesystem_paths : String) :
    TypeDatabase :=
  { db with
    typesystemPaths := db.typesystemPaths ++ splitKeepEmptyParts typesystem_paths pathSplitter }

/-- The `foreach` loop of `TypeDatabase::modifiedTypesystemFilepath` over the
search directories. -/
def modifiedTypesystemFilepathLoop (fileExists : String → Bool) (fileName tsFile : String) :
    List String → String
  | [] => tsFile
  | path :: rest =>
    if fileExists (path ++ "/" ++ fileName) then path ++ "/" ++ fileName
    else modifiedTypesystemFilepathLoop fileExists fileName tsFile rest

/-- The file name `modifiedTypesystemFilepath` keeps of the requested path:
what follows the last slash, or the whole path when it has no slash. -/
def baseFileName (tsFile : String) : String :=
  match lastIndexOf tsFile '/' with
  | some idx => right tsFile (tsFile.length - idx - 1)
  | none => tsFile

/-- `TypeDatabase::modifiedTypesystemFilepath`; `fileExists` is `QFile::exists`,
the state of the file system. -/
def modifiedTypesystemFilepath (fileExists : String → Bool) (db : TypeDatabase)
    (tsFile : String) : String :=
  if !fileExists tsFile then
    modifiedTypesystemFilepathLoop fileExists (baseFileName tsFile) tsFile db.typesystemPaths
  else tsFile

/-- `TypeDatabase::parseFile(const QString&, bool)`. `fileExists` is the state
of the file system and `parseDevice` stands for
`parseFile(QIODevice*, bool)`, the run of the XML reader with the `Handler` of
`typesystem_p.h` on the registry: given the resolved path, the `generate`
argument and the registry, it returns the outcome and the registry as the
handler leaves it. The warning sent to `ReportHandler` is not part of the
state. -/
def parseFile (fileExists : String → Bool)
    (parseDevice : String → Bool → TypeDatabase → Bool × TypeDatabase)
    (db : TypeDatabase) (filename : String) (generate : Bool) : Bool × TypeDatabase :=
  let filepath := db.modifiedTypesystemFilepath fileExists filename
  if db.parsedTypesystemFiles.contains filepath then
    (db.parsedTypesystemFiles.value filepath false, db)
  else if !fileExists filepath then (false, db)
  else
    let parsed := parseDevice filepath generate db
    (parsed.1,
      { parsed.2 with
        parsedTypesystemFiles := parsed.2.parsedTypesystemFiles.insert filepath parsed.1 })

/-! ### Primitive and container lookups -/

/-- The `foreach` loop of `TypeDatabase::findPrimitiveType`: the first entry
that is not null, is a primitive and has `preferredTargetLangType()`. -/
def findPrimitiveTypeLoop : List (Option TypeEntry) → Option TypeEntry
  | [] => none
  | none :: rest => findPrimitiveTypeLoop rest
  | some entry :: rest =>
    if entry.isPrimitive && entry.preferredTargetLangType then some entry
    else findPrimitiveTypeLoop rest

/-- `TypeDatabase::findPrimitiveType`. -/
def findPrimitiveType (db : TypeDatabase) (name : String) : Option TypeEntry :=
  findPrimitiveTypeLoop (db.findTypes name)

/-- The name `TypeDatabase::findContainerType` looks up: the name cut before
its first `<` when that is at an index greater than zero, the name itself
otherwise. -/
def containerTemplateName (name : String) : String :=
  match indexOfChar name '<' with
  | some pos => if 0 < pos then left name pos else name
  | none => name

/-- `TypeDatabase::findContainerType`. -/
def findContainerType (db : TypeDatabase) (name : String) : Option TypeEntry :=
  match db.findType (containerTemplateName name) with
  | some type_entry => if type_entry.isContainer then some type_entry else none
  | none => none

/-! ### Templates, added functions and function modifications -/

/-- `TypeDatabase::findTemplate`: `return m_d->templates[name]`. The hash is
reached through the pointer `m_d`, which is not const in a const member
function, so the subscript is the non-const one: for a name that is not a key
it inserts a null pointer under the name. The result is the pointer returned
and the registry after the call. -/
def findTemplate (db : TypeDatabase) (name : String) :
    Option TemplateEntry × TypeDatabase :=
  ((db.templates.subscript name none).1,
    { db with templates := (db.templates.subscript name none).2 })

/-- `TypeDatabase::addTemplate`: `m_d->templates[t->name()] = t`. The entry is
dereferenced, so it is not null. -/
def addTemplate (db : TypeDatabase) (t : TemplateEntry) : TypeDatabase :=
  { db with templates := db.templates.insert t.name (some t) }

/-- `TypeDatabase::addGlobalUserFunctions`. -/
def addGlobalUserFunctions (db : TypeDatabase) (functions : List AddedFunction) :
    TypeDatabase :=
  { db with globalUserFunctions := db.globalUserFunctions ++ functions }

/-- `TypeDatabase::addGlobalUserFunctionModifications`. -/
def addGlobalUserFunctionModifications (db : TypeDatabase)
    (functionModifications : List FunctionModification) : TypeDatabase :=
  { db with functionMods := db.functionMods ++ functionModifications }

/-- `TypeDatabase::addGlobalUserFunctionModification`. -/
def addGlobalUserFunctionModification (db : TypeDatabase)
    (functionModification : FunctionModification) : TypeDatabase :=
  { db with functionMods := db.functionMods ++ [functionModification] }

/-- The `for` loop of `TypeDatabase::functionModifications` over the stored
modifications, with the list `lst` built so far. -/
def functionModificationsLoop (signature : String) :
    List FunctionModification → List FunctionModification → List FunctionModification
  | [], lst => lst
  | mod :: rest, lst =>
    if mod.signature = signature then functionModificationsLoop signature rest (lst ++ [mod])
    else functionModificationsLoop signature rest lst

/-- `TypeDatabase::functionModifications`. -/
def functionModifications (db : TypeDatabase) (signature : String) :
    List FunctionModification :=
  functionModificationsLoop signature db.functionMods []

/-! ### API version, drop list and the registry instance -/

/-- `TypeDatabase::setApiVersion(double)`. -/
def setApiVersion (db : TypeDatabase) (version : Rat) : TypeDatabase :=
  { db with apiVersion := version }

/-- `TypeDatabase::setDropTypeEntries`: the list is stored sorted, in the
ascending order of the characters. -/
def setDropTypeEntries (db : TypeDatabase) (dropTypeEntries : List String) : TypeDatabase :=
  { db with dropTypeEntries := dropTypeEntries.insertionSort (fun a b => a.data ≤ b.data) }

/-- `TypeDatabase::instance`. The static pointer `db` of the function is the
second argument and the second component of the result; the first component
is the registry returned. A registry is constructed when there is none or when
`newInstance` is set, and the previous one is deleted. -/
def getInstance (newInstance : Bool) (db : Option TypeDatabase) :
    TypeDatabase × Option TypeDatabase :=
  match db with
  | some d => if newInstance then (construct, some construct) else (d, some d)
  | none => (construct, some construct)

/-- The registry states that the public operations build: the constructed
registry, and what each public operation that changes the state makes of such
a state. `findTemplate` is among them, since it may insert into the template
index. For `parseFile` the registry as the handler leaves it has to be such a
state too: the handler acts on the registry through its public operations. -/
inductive Reachable : TypeDatabase → Prop where
  | construct : Reachable construct
  | addType (db : TypeDatabase) (e : TypeEntry) : Reachable db → Reachable (db.addType e)
  | addFlagsType (db : TypeDatabase) (fte : TypeEntry) :
      Reachable db → Reachable (db.addFlagsType fte)
  | addTemplate (db : TypeDatabase) (t : TemplateEntry) :
      Reachable db → Reachable (db.addTemplate t)
  | findTemplate (db : TypeDatabase) (name : String) :
      Reachable db → Reachable (db.findTemplate name).2
  | addRejection (db : TypeDatabase) (className functionName fieldName enumName : String) :
      Reachable db → Reachable (db.addRejection className functionName fieldName enumName)
  | setRebuildClasses (db : TypeDatabase) (cls : List String) :
      Reachable db → Reachable (db.setRebuildClasses cls)
  | setSuppressWarnings (db : TypeDatabase) (value : Bool) :
      Reachable db → Reachable (db.setSuppressWarnings value)
  | addSuppressedWarning (db : TypeDatabase) (s : String) :
      Reachable db → Reachable (db.addSuppressedWarning s)
  | addRequiredTargetImport (db : TypeDatabase) (moduleName : String) :
      Reachable db → Reachable (db.addRequiredTargetImport moduleName)
  | addTypesystemPath (pathSplitter : Char) (db : TypeDatabase) (typesystem_paths : String) :
      Reachable db → Reachable (db.addTypesystemPath pathSplitter typesystem_paths)
  | addGlobalUserFunctions (db : TypeDatabase) (functions : List AddedFunction) :
      Reachable db → Reachable (db.addGlobalUserFunctions functions)
  | addGlobalUserFunctionModifications (db : TypeDatabase)
      (functionModifications : List FunctionModification) :
      Reachable db → Reachable (db.addGlobalUserFunctionModifications functionModifications)
  | addGlobalUserFunctionModification (db : TypeDatabase)
      (functionModification : FunctionModification) :
      Reachable db → Reachable (db.addGlobalUserFunctionModification functionModification)
  | setApiVersion (db : TypeDatabase) (version : Rat) :
      Reachable db → Reachable (db.setApiVersion version)
  | setDropTypeEntries (db : TypeDatabase) (dropTypeEntries : List String) :
      Reachable db → Reachable (db.setDropTypeEntries dropTypeEntries)
  | parseFile (fileExists : String → Bool)
      (parseDevice : String → Bool → TypeDatabase → Bool × TypeDatabase)
      (db : TypeDatabase) (filename : String) (generate : Bool) :
      Reachable db →
      Reachable (parseDevice (db.modifiedTypesystemFilepath fileExists filename) generate db).2 →
      Reachable (db.parseFile fileExists parseDevice filename generate).2

end TypeDatabase

/-! ## Entities of the naming tests -/

/-- An entity record with the given name, kind and `generate` flag, no rename,
and the flags of the subclasses at their neutral values. -/
def mkData (cppName : String) (kind : Kind) (generate : Bool) : EntryData where
  cppName := cppName
  kind := kind
  generate := generate
  targetRename := none
  preferredTargetLangType := false
  originalName := ""

/-- The namespace `Nsp` of the naming tests, generated or hidden. -/
def nspEntry (generate : Bool) : TypeEntry :=
  TypeEntry.root (mkData "Nsp" Kind.Namespace generate)

/-- The value type `ClassName` of `testClass`, at top level. -/
def classEntry : TypeEntry :=
  TypeEntry.root (mkData "ClassName" (Kind.Complex ComplexKind.Value) true)

/-- The value type `ClassName` of `testClassInNamespace` and
`testClassInHiddenNamespace`, inside the namespace `Nsp`. -/
def classInNsp (nspGenerate : Bool) : TypeEntry :=
  TypeEntry.nested (nspEntry nspGenerate)
    (mkData "ClassName" (Kind.Complex ComplexKind.Value) true)

/-- The class `D` of `testDeepClassNesting`, nested as `A::B::C::D`. -/
def deepD : TypeEntry :=
  TypeEntry.nested
    (TypeEntry.nested
      (TypeEntry.nested
        (TypeEntry.root (mkData "A" (Kind.Complex ComplexKind.Value) true))
        (mkData "B" (Kind.Complex ComplexKind.Value) true))
      (mkData "C" (Kind.Complex ComplexKind.Value) true))
    (mkData "D" (Kind.Complex ComplexKind.Value) true)

/-- The enum `Color`, registered at top level. -/
def colorEnum : TypeEntry :=
  TypeEntry.root (mkData "Color" Kind.Enum true)

/-- A primitive entry with the given name, preferred target-language type or
not. -/
def primitiveEntry (name : String) (preferred : Bool) : TypeEntry :=
  TypeEntry.root
    { cppName := name, kind := Kind.Primitive, generate := true, targetRename := none,
      preferredTargetLangType := preferred, originalName := "" }

/-- A registry holding two primitives under the key `int`: first an alias
that is not preferred, then the preferred one. -/
def aliasDb : TypeDatabase :=
  (TypeDatabase.construct.addType (primitiveEntry "int" false)).addType
    (primitiveEntry "int" true)

/-- The flags entity of the enum `Qt::AlignmentFlag`, whose origin name is
`Qt::Alignment`. -/
def alignmentFlags : TypeEntry :=
  TypeEntry.root
    { cppName := "QFlags<Qt::AlignmentFlag>", kind := Kind.Flags, generate := true,
      targetRename := none, preferredTargetLangType := false, originalName := "Qt::Alignment" }

/-- A registry whose flags index holds `alignmentFlags` and whose entries are
the built-in ones. -/
def flagsDb : TypeDatabase :=
  TypeDatabase.construct.addFlagsType alignmentFlags

/-- The file system of the examples: the only file that exists is
`/usr/share/ts/typesystem_core.xml`. -/
def sampleFiles (path : String) : Bool :=
  path = "/usr/share/ts/typesystem_core.xml"

/-- A parser for the examples: it succeeds on every file and registers the
value type `ClassName`. -/
def sampleParser (_filepath : String) (_generate : Bool) (db : TypeDatabase) :
    Bool × TypeDatabase :=
  (true, db.addType classEntry)

/-- A registry with the two rejection rules `(A, f, x, E)` and
`(*, g, y, F)`. -/
def rulesDb : TypeDatabase :=
  (TypeDatabase.construct.addRejection "A" "f" "x" "E").addRejection "*" "g" "y" "F"

/-- The container `QList`, registered at top level. -/
def qlistEntry : TypeEntry :=
  TypeEntry.root (mkData "QList" Kind.Container true)

/-- A registry holding under the key `X` first a value type and then a
preferred primitive. -/
def mixedDb : TypeDatabase :=
  (TypeDatabase.construct.addType
    (TypeEntry.root (mkData "X" (Kind.Complex ComplexKind.Value) true))).addType
    (primitiveEntry "X" true)

/-- A registry with four function modifications, three of them for the
signature `f(int)`, one of these added twice. -/
def modsDb : TypeDatabase :=
  ((TypeDatabase.construct.addGlobalUserFunctionModification
        { signature := "f(int)", content := "rename" }).addGlobalUserFunctionModification
      { signature := "g()", content := "remove" }).addGlobalUserFunctionModifications
    [{ signature := "f(int)", content := "private" },
     { signature := "f(int)", content := "rename" }]

/-! ## Lemmas on strings and association lists -/

theorem intercalate_go_snoc (sep x : String) (l : List String) (acc : String) :
    String.intercalate.go acc sep (l ++ [x]) = String.intercalate.go acc sep l ++ sep ++ x := by
  induction l generalizing acc with
  | nil => simp [String.intercalate.go]
  | cons a l ih => simp only [List.cons_append, String.intercalate.go]; exact ih _

theorem intercalate_snoc (sep x : String) (l : List String) :
    String.intercalate sep (l ++ [x]) =
      if l = [] then x else String.intercalate sep l ++ sep ++ x := by
  cases l with
  | nil => simp [String.intercalate, String.intercalate.go]
  | cons a l =>
    simp only [List.cons_append, String.intercalate, reduceCtorEq, if_false]
    exact intercalate_go_snoc sep x l a

theorem string_append_eq_empty (s t : String) : s ++ t = "" ↔ s = "" ∧ t = "" := by
  constructor
  · intro h
    have h' := congrArg String.data h
    simp only [String.data_append] at h'
    have : s.data = [] ∧ t.data = [] := by simpa using h'
    exact ⟨String.ext this.1, String.ext this.2⟩
  · rintro ⟨rfl, rfl⟩; rfl

theorem lookup_eq_none_of_not_mem {V : Type} (l : List (String × V)) (k : String)
    (h : k ∉ l.map Prod.fst) : l.lookup k = none := by
  induction l with
  | nil => rfl
  | cons p l ih =>
    obtain ⟨a, b⟩ := p
    simp only [List.map_cons, List.mem_cons, not_or] at h
    have hne : (k == a) = false := by simpa using h.1
    rw [List.lookup_cons, hne]
    exact ih h.2

theorem mem_keys_of_lookup {V : Type} (l : List (String × V)) (k : String) (v : V)
    (h : l.lookup k = some v) : k ∈ l.map Prod.fst ∧ (k, v) ∈ l := by
  induction l with
  | nil => simp at h
  | cons p l ih =>
    obtain ⟨a, b⟩ := p
    rw [List.lookup_cons] at h
    by_cases hk : k = a
    · subst hk
      simp at h
      subst h
      simp
    · have hne : (k == a) = false := by simpa using hk
      rw [hne] at h
      have := ih h
      simp [this.1, this.2]

theorem lookup_map_replace_same {V : Type} (l : List (String × V)) (k : String) (v : V)
    (h : k ∈ l.map Prod.fst) :
    (l.map (fun p => if p.1 = k then (p.1, v) else p)).lookup k = some v := by
  induction l with
  | nil => simp at h
  | cons p l ih =>
    obtain ⟨a, b⟩ := p
    by_cases hk : a = k
    · subst hk; simp [List.lookup_cons]
    · have hne : (k == a) = false := by simpa using (Ne.symm hk)
      have h' : k ∈ l.map Prod.fst := by
        simp only [List.map_cons, List.mem_cons] at h
        rcases h with h | h
        · exact absurd h.symm hk
        · exact h
      simp only [List.map_cons, if_neg hk, List.lookup_cons, hne]
      exact ih h'

theorem lookup_map_replace_other {V : Type} (l : List (String × V)) (k k' : String) (v : V)
    (hne : k' ≠ k) :
    (l.map (fun p => if p.1 = k then (p.1, v) else p)).lookup k' = l.lookup k' := by
  induction l with
  | nil => rfl
  | cons p l ih =>
    obtain ⟨a, b⟩ := p
    by_cases hk : a = k
    · subst hk
      have : (k' == a) = false := by simpa using hne
      simp [List.lookup_cons, this, ih]
    · simp only [List.map_cons, if_neg hk, List.lookup_cons, ih]

theorem lookup_append_single {V : Type} (l : List (String × V)) (k k' : String) (v : V) :
    (l ++ [(k, v)]).lookup k' =
      match l.lookup k' with
      | some w => some w
      | none => if k' = k then some v else none := by
  induction l with
  | nil =>
    by_cases h : k' = k
    · subst h; simp [List.lookup_cons]
    · have : (k' == k) = false := by simpa using h
      simp [List.lookup_cons, this, h]
  | cons p l ih =>
    obtain ⟨a, b⟩ := p
    by_cases h : k' = a
    · subst h; simp [List.lookup_cons]
    · have : (k' == a) = false := by simpa using h
      simp only [List.cons_append, List.lookup_cons, this, ih]

theorem QHash.value_insert_same {V : Type} (h : QHash V) (k : String) (v dflt : V) :
    (h.insert k v).value k dflt = v := by
  unfold QHash.insert QHash.value
  by_cases hc : h.contains k = true
  · rw [if_pos hc]
    have hm : k ∈ h.items.map Prod.fst := by
      simpa [QHash.contains, QHash.keys] using hc
    simp only [lookup_map_replace_same h.items k v hm, Option.getD_some]
  · rw [if_neg hc]
    have hm : k ∉ h.items.map Prod.fst := by
      simpa [QHash.contains, QHash.keys] using hc
    simp only [lookup_append_single, lookup_eq_none_of_not_mem h.items k hm, if_true,
      Option.getD_some]

theorem QHash.value_insert_other {V : Type} (h : QHash V) (k k' : String) (v dflt : V)
    (hne : k' ≠ k) : (h.insert k v).value k' dflt = h.value k' dflt := by
  unfold QHash.insert QHash.value
  by_cases hc : h.contains k = true
  · rw [if_pos hc]
    simp only [lookup_map_replace_other h.items k k' v hne]
  · rw [if_neg hc]
    simp only [lookup_append_single, if_neg hne]
    cases h.items.lookup k' <;> rfl

theorem QHash.value_of_not_contains {V : Type} (h : QHash V) (k : String) (dflt : V)
    (hc : h.contains k = false) : h.value k dflt = dflt := by
  have hm : k ∉ h.items.map Prod.fst := by
    simpa [QHash.contains, QHash.keys] using hc
  simp [QHash.value, lookup_eq_none_of_not_mem h.items k hm]

/-! ## Lemmas on the scope chain and the naming functions -/

theorem mem_scopeChain_self (e : TypeEntry) : e ∈ e.scopeChain := by
  cases e <;> simp [TypeEntry.scopeChain]

theorem scopeChain_shape (e : TypeEntry) :
    List.Chain' (fun a b => b.enclosingScope = some a) e.scopeChain ∧
      e.scopeChain.getLast? = some e ∧
      (∃ r, e.scopeChain.head? = some r ∧ r.enclosingScope = none) := by
  induction e with
  | root d => simp [TypeEntry.scopeChain, TypeEntry.enclosingScope]
  | nested p d ih =>
    obtain ⟨h1, h2, r, h3, h4⟩ := ih
    refine ⟨?_, by simp [TypeEntry.scopeChain], r, ?_, h4⟩
    · rw [TypeEntry.scopeChain]
      refine List.Chain'.append h1 (by simp) ?_
      intro a ha b hb
      simp at hb
      subst hb
      rw [h2] at ha
      simp at ha
      subst ha
      rfl
    · rw [TypeEntry.scopeChain]
      cases hc : p.scopeChain with
      | nil => rw [hc] at h3; simp at h3
      | cons x xs => rw [hc] at h3; simpa using h3

theorem qualifiedCppName_nested (p : TypeEntry) (d : EntryData) :
    (TypeEntry.nested p d).qualifiedCppName = p.qualifiedCppName ++ "::" ++ d.cppName := by
  have hne : p.scopeChain.map (fun a => a.data.cppName) ≠ [] := by
    cases p <;> simp [TypeEntry.scopeChain]
  unfold TypeEntry.qualifiedCppName
  rw [TypeEntry.scopeChain, List.map_append, List.map_cons, List.map_nil, intercalate_snoc,
    if_neg hne]
  rfl

theorem withGenerate_cppNames (f : EntryData → Bool) (e : TypeEntry) :
    (e.withGenerate f).scopeChain.map (fun a => a.data.cppName)
      = e.scopeChain.map (fun a => a.data.cppName) := by
  induction e with
  | root d => rfl
  | nested p d ih =>
    simp only [TypeEntry.withGenerate, TypeEntry.scopeChain, List.map_append, ih]
    rfl

theorem visibleChain_root (d : EntryData) :
    (TypeEntry.root d).visibleChain = if d.generate then [TypeEntry.root d] else [] := by
  cases h : d.generate <;>
    simp [TypeEntry.visibleChain, TypeEntry.scopeChain, List.takeWhile, TypeEntry.generateCode,
      TypeEntry.data, h]

theorem visibleChain_nested (p : TypeEntry) (d : EntryData) :
    (TypeEntry.nested p d).visibleChain =
      if d.generate then p.visibleChain ++ [TypeEntry.nested p d] else [] := by
  cases h : d.generate <;>
    simp [TypeEntry.visibleChain, TypeEntry.scopeChain, List.takeWhile, TypeEntry.generateCode,
      TypeEntry.data, h]

theorem targetLangName_of_hidden (e : TypeEntry) (h : e.generateCode = false) :
    e.targetLangName = "" := by
  cases e <;> simp_all [TypeEntry.targetLangName, TypeEntry.generateCode, TypeEntry.data]

theorem visibleChain_of_hidden (e : TypeEntry) (h : e.generateCode = false) :
    e.visibleChain = [] := by
  cases e with
  | root d => rw [visibleChain_root]; simp_all [TypeEntry.generateCode, TypeEntry.data]
  | nested p d => rw [visibleChain_nested]; simp_all [TypeEntry.generateCode, TypeEntry.data]

theorem visibleChain_of_generated (e : TypeEntry) (h : e.generateCode = true) :
    e.visibleChain ≠ [] := by
  cases e with
  | root d => rw [visibleChain_root]; simp_all [TypeEntry.generateCode, TypeEntry.data]
  | nested p d => rw [visibleChain_nested]; simp_all [TypeEntry.generateCode, TypeEntry.data]

theorem targetLangName_ne_empty (e : TypeEntry) (h : e.generateCode = true)
    (hn : e.shortName ≠ "") : e.targetLangName ≠ "" := by
  cases e with
  | root d =>
    have hg : d.generate = true := h
    simpa [TypeEntry.targetLangName, hg] using hn
  | nested p d =>
    have hg : d.generate = true := h
    rw [TypeEntry.targetLangName, if_pos hg]
    split
    · exact hn
    · intro hc
      exact hn ((string_append_eq_empty _ _).1 hc).2

theorem targetLangName_eq_join (e : TypeEntry) (hn : ∀ a ∈ e.scopeChain, a.shortName ≠ "") :
    e.targetLangName = String.intercalate "." (e.visibleChain.map TypeEntry.shortName) := by
  induction e with
  | root d =>
    rw [visibleChain_root, TypeEntry.targetLangName]
    cases d.generate <;> simp [String.intercalate, String.intercalate.go]
  | nested p d ih =>
    have hp : ∀ a ∈ p.scopeChain, a.shortName ≠ "" := fun a ha =>
      hn a (by rw [TypeEntry.scopeChain]; exact List.mem_append_left _ ha)
    rw [visibleChain_nested, TypeEntry.targetLangName]
    cases hg : d.generate
    · simp [String.intercalate]
    · simp only [if_true, List.map_append, List.map_cons, List.map_nil, intercalate_snoc]
      cases hpg : p.generateCode
      · rw [targetLangName_of_hidden p hpg, visibleChain_of_hidden p hpg]
        simp
      · have h1 := targetLangName_ne_empty p hpg (hp p (mem_scopeChain_self p))
        have h2 : List.map TypeEntry.shortName p.visibleChain ≠ [] := by
          simpa using visibleChain_of_generated p hpg
        rw [if_neg h1, if_neg h2, ih hp]

/-! ## Lemmas on the loops of the registry -/

open TypeDatabase

theorem findTypeLoop_eq_some (l : List (Option TypeEntry)) (e : TypeEntry) :
    findTypeLoop l = some e ↔
      ∃ pre post, l = pre ++ some e :: post ∧
        (e.isPrimitive = false ∨ e.preferredTargetLangType = true) ∧
        ∀ y, some y ∈ pre → ¬ (y.isPrimitive = false ∨ y.preferredTargetLangType = true) := by
  induction l with
  | nil => simp [findTypeLoop]
  | cons x rest ih =>
    cases x with
    | none =>
      rw [findTypeLoop, ih]
      constructor
      · rintro ⟨pre, post, h1, h2, h3⟩
        exact ⟨none :: pre, post, by simp [h1], h2, by simpa using h3⟩
      · rintro ⟨pre, post, h1, h2, h3⟩
        cases pre with
        | nil => simp at h1
        | cons p pre =>
          simp only [List.cons_append, List.cons.injEq] at h1
          exact ⟨pre, post, h1.2, h2, fun y hy => h3 y (List.mem_cons_of_mem _ hy)⟩
    | some x =>
      rw [findTypeLoop]
      by_cases hx : (!x.isPrimitive || x.preferredTargetLangType) = true
      · rw [if_pos hx]
        have hx' : x.isPrimitive = false ∨ x.preferredTargetLangType = true := by
          simpa using hx
        constructor
        · intro h
          cases h
          exact ⟨[], rest, rfl, hx', by simp⟩
        · rintro ⟨pre, post, h1, h2, h3⟩
          cases pre with
          | nil => simp at h1; rw [h1.1]
          | cons p pre =>
            simp only [List.cons_append, List.cons.injEq] at h1
            exact absurd hx' (h3 x (by rw [← h1.1]; exact List.mem_cons_self _ _))
      · rw [if_neg hx, ih]
        have hx' : ¬ (x.isPrimitive = false ∨ x.preferredTargetLangType = true) := by
          simpa using hx
        constructor
        · rintro ⟨pre, post, h1, h2, h3⟩
          refine ⟨some x :: pre, post, by simp [h1], h2, ?_⟩
          intro y hy
          rcases List.mem_cons.1 hy with h | h
          · cases h; exact hx'
          · exact h3 y h
        · rintro ⟨pre, post, h1, h2, h3⟩
          cases pre with
          | nil =>
            simp only [List.nil_append, List.cons.injEq, Option.some.injEq] at h1
            rw [h1.1] at hx'
            exact absurd h2 hx'
          | cons p pre =>
            simp only [List.cons_append, List.cons.injEq] at h1
            exact ⟨pre, post, h1.2, h2, fun y hy => h3 y (List.mem_cons_of_mem _ hy)⟩

theorem findTypeLoop_eq_none (l : List (Option TypeEntry)) :
    findTypeLoop l = none ↔
      ∀ y, some y ∈ l → ¬ (y.isPrimitive = false ∨ y.preferredTargetLangType = true) := by
  induction l with
  | nil => simp [findTypeLoop]
  | cons x rest ih =>
    cases x with
    | none => rw [findTypeLoop, ih]; simp
    | some x =>
      rw [findTypeLoop]
      by_cases hx : (!x.isPrimitive || x.preferredTargetLangType) = true
      · rw [if_pos hx]
        have hx' : x.isPrimitive = false ∨ x.preferredTargetLangType = true := by
          simpa using hx
        simp only [false_iff, reduceCtorEq]
        intro h
        exact h x (List.mem_cons_self _ _) hx'
      · rw [if_neg hx, ih]
        have hx' : ¬ (x.isPrimitive = false ∨ x.preferredTargetLangType = true) := by
          simpa using hx
        constructor
        · intro h y hy
          rcases List.mem_cons.1 hy with h' | h'
          · cases h'; exact hx'
          · exact h y h'
        · intro h y hy
          exact h y (List.mem_cons_of_mem _ hy)

theorem mem_visibleChain (e a : TypeEntry) (h : a ∈ e.visibleChain) :
    a ∈ e.scopeChain ∧ a.generateCode = true := by
  unfold TypeEntry.visibleChain at h
  rw [List.mem_reverse] at h
  exact ⟨List.mem_reverse.1 ((List.takeWhile_sublist _).subset h), List.mem_takeWhile_imp h⟩

theorem endsWith_self (s : String) : endsWith s s = true := by
  simp [endsWith]

theorem lookup_isSome_of_mem_keys {V : Type} (l : List (String × V)) (k : String)
    (h : k ∈ l.map Prod.fst) : ∃ v, l.lookup k = some v := by
  cases hl : l.lookup k with
  | some v => exact ⟨v, rfl⟩
  | none =>
    exfalso
    induction l with
    | nil => simp at h
    | cons p l ih =>
      obtain ⟨a, b⟩ := p
      rw [List.lookup_cons] at hl
      by_cases hk : k = a
      · subst hk; simp at hl
      · have hne : (k == a) = false := by simpa using hk
        rw [hne] at hl
        simp only [List.map_cons, List.mem_cons] at h
        rcases h with h | h
        · exact hk h
        · exact ih h hl

theorem QHash.value_ne_none_of_mem_keys {V : Type} (h : QHash (Option V)) (k : String)
    (hnn : ∀ p ∈ h.items, p.2 ≠ none) (hk : k ∈ h.keys) : h.value k none ≠ none := by
  obtain ⟨v, hv⟩ := lookup_isSome_of_mem_keys h.items k hk
  have := (mem_keys_of_lookup h.items k v hv).2
  simp only [QHash.value, hv, Option.getD_some]
  exact hnn _ this

theorem QHash.mem_keys_of_value_some {V : Type} (h : QHash (Option V)) (k : String) (v : V)
    (hv : h.value k none = some v) : k ∈ h.keys := by
  unfold QHash.value at hv
  cases hl : h.items.lookup k with
  | none => rw [hl] at hv; simp at hv
  | some w => exact (mem_keys_of_lookup h.items k w hl).1

theorem findFlagsTypeLoop_no_match (flags : QHash (Option TypeEntry)) (name : String)
    (ks : List String) (h : ∀ k ∈ ks, endsWith k name = false) :
    findFlagsTypeLoop flags name ks = none := by
  induction ks with
  | nil => rfl
  | cons k ks ih =>
    rw [findFlagsTypeLoop, h k (List.mem_cons_self _ _)]
    exact ih (fun k' hk' => h k' (List.mem_cons_of_mem _ hk'))

theorem findFlagsTypeLoop_first_match (flags : QHash (Option TypeEntry)) (name : String)
    (ks : List String) (h : ∃ k ∈ ks, endsWith k name = true) :
    ∃ k ∈ ks, endsWith k name = true ∧ findFlagsTypeLoop flags name ks = flags.value k none := by
  induction ks with
  | nil => simp at h
  | cons k ks ih =>
    by_cases hk : endsWith k name = true
    · exact ⟨k, List.mem_cons_self _ _, hk, by rw [findFlagsTypeLoop, if_pos hk]⟩
    · have h' : ∃ k ∈ ks, endsWith k name = true := by
        obtain ⟨k', hk', he⟩ := h
        rcases List.mem_cons.1 hk' with h1 | h1
        · subst h1; exact absurd he hk
        · exact ⟨k', h1, he⟩
      obtain ⟨k', hk', he, hl⟩ := ih h'
      exact ⟨k', List.mem_cons_of_mem _ hk', he, by rw [findFlagsTypeLoop, if_neg hk, hl]⟩

theorem isClassRejectedLoop_iff (className : String) (rules : List TypeRejection) :
    isClassRejectedLoop className rules = true ↔
      ∃ r ∈ rules, r.class_name = className ∧ r.function_name = "*" ∧ r.field_name = "*"
        ∧ r.enum_name = "*" := by
  induction rules with
  | nil => simp [isClassRejectedLoop]
  | cons r rest ih =>
    rw [isClassRejectedLoop]
    split
    · rename_i h
      simp only [List.mem_cons, true_iff]
      exact ⟨r, Or.inl rfl, h⟩
    · rename_i h
      rw [ih]
      constructor
      · rintro ⟨r', hr', hp⟩
        exact ⟨r', List.mem_cons_of_mem _ hr', hp⟩
      · rintro ⟨r', hr', hp⟩
        rcases List.mem_cons.1 hr' with h1 | h1
        · subst h1; exact absurd hp h
        · exact ⟨r', h1, hp⟩

/-! ## Lemmas on the rejection rules, the imports and the file lookup -/

theorem isEnumRejectedLoop_iff (className enumName : String) (rules : List TypeRejection) :
    isEnumRejectedLoop className enumName rules = true ↔
      ∃ r ∈ rules, r.enum_name = enumName ∧ (r.class_name = className ∨ r.class_name = "*") := by
  induction rules with
  | nil => simp [isEnumRejectedLoop]
  | cons r rest ih =>
    rw [isEnumRejectedLoop]
    split
    · rename_i h
      simp only [List.mem_cons, true_iff]
      exact ⟨r, Or.inl rfl, h⟩
    · rename_i h
      rw [ih]
      constructor
      · rintro ⟨r', hr', hp⟩
        exact ⟨r', List.mem_cons_of_mem _ hr', hp⟩
      · rintro ⟨r', hr', hp⟩
        rcases List.mem_cons.1 hr' with h1 | h1
        · subst h1; exact absurd hp h
        · exact ⟨r', h1, hp⟩

theorem isFunctionRejectedLoop_iff (className functionName : String)
    (rules : List TypeRejection) :
    isFunctionRejectedLoop className functionName rules = true ↔
      ∃ r ∈ rules, r.function_name = functionName ∧
        (r.class_name = className ∨ r.class_name = "*") := by
  induction rules with
  | nil => simp [isFunctionRejectedLoop]
  | cons r rest ih =>
    rw [isFunctionRejectedLoop]
    split
    · rename_i h
      simp only [List.mem_cons, true_iff]
      exact ⟨r, Or.inl rfl, h⟩
    · rename_i h
      rw [ih]
      constructor
      · rintro ⟨r', hr', hp⟩
        exact ⟨r', List.mem_cons_of_mem _ hr', hp⟩
      · rintro ⟨r', hr', hp⟩
        rcases List.mem_cons.1 hr' with h1 | h1
        · subst h1; exact absurd hp h
        · exact ⟨r', h1, hp⟩

theorem isFieldRejectedLoop_iff (className fieldName : String) (rules : List TypeRejection) :
    isFieldRejectedLoop className fieldName rules = true ↔
      ∃ r ∈ rules, r.field_name = fieldName ∧
        (r.class_name = className ∨ r.class_name = "*") := by
  induction rules with
  | nil => simp [isFieldRejectedLoop]
  | cons r rest ih =>
    rw [isFieldRejectedLoop]
    split
    · rename_i h
      simp only [List.mem_cons, true_iff]
      exact ⟨r, Or.inl rfl, h⟩
    · rename_i h
      rw [ih]
      constructor
      · rintro ⟨r', hr', hp⟩
        exact ⟨r', List.mem_cons_of_mem _ hr', hp⟩
      · rintro ⟨r', hr', hp⟩
        rcases List.mem_cons.1 hr' with h1 | h1
        · subst h1; exact absurd hp h
        · exact ⟨r', h1, hp⟩

theorem bool_eq_of_iff {a b : Bool} (h : a = true ↔ b = true) : a = b := by
  cases a <;> cases b <;> simp_all

theorem requiredTargetImports_addRequiredTargetImport (db : TypeDatabase) (m : String) :
    (db.addRequiredTargetImport m).requiredTargetImports =
      if m ∈ db.requiredTargetImports then db.requiredTargetImports
      else db.requiredTargetImports ++ [m] := by
  unfold addRequiredTargetImport
  by_cases h : m ∈ db.requiredTargetImports
  · simp [h]
  · simp [h]

theorem addRequiredTargetImport_of_mem (db : TypeDatabase) (m : String)
    (h : m ∈ db.requiredTargetImports) : db.addRequiredTargetImport m = db := by
  unfold addRequiredTargetImport
  rw [if_neg]
  simp [h]

theorem foldl_addRequiredTargetImport_invariant (names : List String) :
    ((names.foldl addRequiredTargetImport TypeDatabase.construct).requiredTargetImports).Nodup ∧
    (∀ m, m ∈ (names.foldl addRequiredTargetImport TypeDatabase.construct).requiredTargetImports
      ↔ m ∈ names) ∧
    ((names.foldl addRequiredTargetImport TypeDatabase.construct).requiredTargetImports).Pairwise
      (fun a b => names.indexOf a < names.indexOf b) := by
  induction names using List.reverseRecOn with
  | nil => exact ⟨List.nodup_nil, fun m => by simp [TypeDatabase.construct, addType, TypeDatabase.empty],
      by simp [TypeDatabase.construct, addType, TypeDatabase.empty]⟩
  | append_singleton names x ih =>
    obtain ⟨hnd, hmem, hpw⟩ := ih
    rw [List.foldl_append, List.foldl_cons, List.foldl_nil,
      requiredTargetImports_addRequiredTargetImport]
    have hpw' : List.Pairwise (fun a b => (names ++ [x]).indexOf a < (names ++ [x]).indexOf b)
        (names.foldl addRequiredTargetImport TypeDatabase.construct).requiredTargetImports := by
      refine hpw.imp_of_mem ?_
      intro a b ha hb hlt
      rw [List.indexOf_append_of_mem ((hmem a).1 ha), List.indexOf_append_of_mem ((hmem b).1 hb)]
      exact hlt
    by_cases hx : x ∈ (names.foldl addRequiredTargetImport TypeDatabase.construct).requiredTargetImports
    · rw [if_pos hx]
      refine ⟨hnd, fun m => ?_, hpw'⟩
      rw [hmem, List.mem_append, List.mem_singleton]
      constructor
      · exact Or.inl
      · rintro (h | h)
        · exact h
        · rw [h]; exact (hmem x).1 hx
    · rw [if_neg hx]
      have hxn : x ∉ names := fun h => hx ((hmem x).2 h)
      refine ⟨?_, fun m => ?_, ?_⟩
      · exact List.Nodup.append hnd (List.nodup_singleton x) (by
          intro a ha hb
          rw [List.mem_singleton] at hb
          subst hb
          exact hx ha)
      · simp only [List.mem_append, List.mem_singleton, hmem]
      · rw [List.pairwise_append]
        refine ⟨hpw', List.pairwise_singleton _ _, ?_⟩
        intro a ha b hb
        rw [List.mem_singleton] at hb
        subst hb
        rw [List.indexOf_append_of_mem ((hmem a).1 ha), List.indexOf_append_of_not_mem hxn]
        have := List.indexOf_lt_length.2 ((hmem a).1 ha)
        omega

theorem lastIndexOfChars_of_not_mem (c : Char) (l : List Char) (h : c ∉ l) :
    lastIndexOfChars c l = none := by
  induction l with
  | nil => rfl
  | cons x xs ih =>
    simp only [List.mem_cons, not_or] at h
    rw [lastIndexOfChars, ih h.2]
    simp [Ne.symm h.1]

theorem lastIndexOfChars_split (c : Char) (pre post : List Char) (h : c ∉ post) :
    lastIndexOfChars c (pre ++ c :: post) = some pre.length := by
  induction pre with
  | nil =>
    rw [List.nil_append, lastIndexOfChars, lastIndexOfChars_of_not_mem c post h]
    simp
  | cons x xs ih =>
    rw [List.cons_append, lastIndexOfChars, ih]
    rfl

theorem baseFileName_of_no_slash (tsFile : String) (h : '/' ∉ tsFile.data) :
    baseFileName tsFile = tsFile := by
  unfold baseFileName lastIndexOf
  rw [lastIndexOfChars_of_not_mem _ _ h]

theorem baseFileName_after_last_slash (tsFile : String) (pre post : List Char)
    (hsplit : tsFile.data = pre ++ '/' :: post) (h : '/' ∉ post) :
    baseFileName tsFile = ⟨post⟩ := by
  unfold baseFileName lastIndexOf
  rw [hsplit, lastIndexOfChars_split _ _ _ h]
  simp only [right, String.length, hsplit, List.length_append, List.length_cons]
  congr 1
  have : pre.length + (post.length + 1) - (pre.length + (post.length + 1) - pre.length - 1)
      = pre.length + 1 := by omega
  rw [this, List.drop_append_eq_append_drop]
  simp

theorem modifiedTypesystemFilepathLoop_first (fileExists : String → Bool)
    (fileName tsFile : String) (pre post : List String) (d : String)
    (hpre : ∀ d' ∈ pre, fileExists (d' ++ "/" ++ fileName) = false)
    (hd : fileExists (d ++ "/" ++ fileName) = true) :
    modifiedTypesystemFilepathLoop fileExists fileName tsFile (pre ++ d :: post)
      = d ++ "/" ++ fileName := by
  induction pre with
  | nil => simp [modifiedTypesystemFilepathLoop, hd]
  | cons x xs ih =>
    have hx := hpre x (List.mem_cons_self _ _)
    simp only [List.cons_append, modifiedTypesystemFilepathLoop, hx]
    exact ih (fun d' hd' => hpre d' (List.mem_cons_of_mem _ hd'))

theorem modifiedTypesystemFilepathLoop_none (fileExists : String → Bool)
    (fileName tsFile : String) (paths : List String)
    (h : ∀ d ∈ paths, fileExists (d ++ "/" ++ fileName) = false) :
    modifiedTypesystemFilepathLoop fileExists fileName tsFile paths = tsFile := by
  induction paths with
  | nil => rfl
  | cons x xs ih =>
    have hx := h x (List.mem_cons_self _ _)
    simp only [modifiedTypesystemFilepathLoop, hx]
    exact ih (fun d' hd' => h d' (List.mem_cons_of_mem _ hd'))

/-! ## Lemmas on the suppression patterns -/

theorem isSuppressedWarningPatterns_iff (s : String) (patterns : List String) :
    isSuppressedWarningPatterns s patterns = true ↔
      ∃ w ∈ patterns, matchesSegments s (warningSegments w) = true := by
  induction patterns with
  | nil => simp [isSuppressedWarningPatterns]
  | cons w rest ih =>
    rw [isSuppressedWarningPatterns]
    split
    · rename_i h
      simp only [List.mem_cons, true_iff]
      exact ⟨w, Or.inl rfl, h⟩
    · rename_i h
      rw [ih]
      constructor
      · rintro ⟨w', hw', hp⟩
        exact ⟨w', List.mem_cons_of_mem _ hw', hp⟩
      · rintro ⟨w', hw', hp⟩
        rcases List.mem_cons.1 hw' with h1 | h1
        · subst h1; exact absurd hp h
        · exact ⟨w', h1, hp⟩

theorem isSuppressedWarning_iff (db : TypeDatabase) (s : String) :
    db.isSuppressedWarning s = true ↔
      db.suppressWarnings = true ∧
        ∃ w ∈ db.suppressedWarnings, matchesSegments s (warningSegments w) = true := by
  unfold isSuppressedWarning
  cases h : db.suppressWarnings
  · simp
  · simpa using isSuppressedWarningPatterns_iff s db.suppressedWarnings

theorem findChars_some_spec (sub l : List Char) (i : Nat) (h : findChars sub l = some i) :
    i ≤ l.length ∧ sub <+: l.drop i := by
  induction l generalizing i with
  | nil =>
    rw [findChars] at h
    split at h
    · rename_i he
      cases h
      simp only [List.isEmpty_eq_true] at he
      simp [he]
    · cases h
  | cons c cs ih =>
    rw [findChars] at h
    split at h
    · rename_i hp
      cases h
      exact ⟨Nat.zero_le _, by simpa using List.isPrefixOf_iff_prefix.1 hp⟩
    · cases hf : findChars sub cs with
      | none => rw [hf] at h; cases h
      | some j =>
        rw [hf] at h
        simp only [Option.map_some', Option.some.injEq] at h
        subst h
        obtain ⟨h1, h2⟩ := ih j hf
        exact ⟨by simp only [List.length_cons]; omega, by simpa using h2⟩

theorem findChars_of_occurrence (sub l : List Char) (j : Nat) (hj : j ≤ l.length)
    (h : sub <+: l.drop j) : ∃ i, i ≤ j ∧ findChars sub l = some i := by
  induction l generalizing j with
  | nil =>
    have hs : sub = [] := by simpa using h
    exact ⟨0, Nat.zero_le _, by simp [findChars, hs]⟩
  | cons c cs ih =>
    rw [findChars]
    by_cases hp : sub.isPrefixOf (c :: cs) = true
    · exact ⟨0, Nat.zero_le _, by rw [if_pos hp]⟩
    · rw [if_neg hp]
      cases j with
      | zero =>
        exfalso
        exact hp (List.isPrefixOf_iff_prefix.2 (by simpa using h))
      | succ j =>
        obtain ⟨i, hi, hf⟩ := ih j (by simpa using hj) (by simpa using h)
        exact ⟨i + 1, by omega, by rw [hf]; rfl⟩

theorem indexOf_some_spec (s str : String) (start i : Nat) (h : indexOf s str start = some i) :
    start ≤ i ∧ i ≤ s.data.length ∧ str.data <+: s.data.drop i := by
  unfold indexOf at h
  split at h
  · rename_i hs
    cases hf : findChars str.data (s.data.drop start) with
    | none => rw [hf] at h; cases h
    | some j =>
      rw [hf] at h
      simp only [Option.map_some', Option.some.injEq] at h
      subst h
      obtain ⟨h1, h2⟩ := findChars_some_spec _ _ _ hf
      have hs' : start ≤ s.data.length := hs
      refine ⟨by omega, ?_, ?_⟩
      · simp only [List.length_drop] at h1; omega
      · rw [List.drop_drop] at h2
        rwa [Nat.add_comm] at h2
  · cases h

theorem indexOf_of_occurrence (s str : String) (start j : Nat) (hsj : start ≤ j)
    (hj : j ≤ s.data.length) (h : str.data <+: s.data.drop j) :
    ∃ i, start ≤ i ∧ i ≤ j ∧ indexOf s str start = some i := by
  have hs : start ≤ s.length := Nat.le_trans hsj hj
  obtain ⟨i, hi, hf⟩ := findChars_of_occurrence str.data (s.data.drop start) (j - start)
    (by simp only [List.length_drop]; omega)
    (by rw [List.drop_drop]; rwa [show start + (j - start) = j by omega])
  refine ⟨i + start, by omega, by omega, ?_⟩
  unfold indexOf
  rw [if_pos hs, hf]
  rfl

theorem indexOf_mono (s str : String) (p q q' : Nat) (hpq : p ≤ q)
    (h : indexOf s str q = some q') : ∃ p', p' ≤ q' ∧ indexOf s str p = some p' := by
  obtain ⟨h1, h2, h3⟩ := indexOf_some_spec s str q q' h
  obtain ⟨i, _, hi, hf⟩ := indexOf_of_occurrence s str p q' (Nat.le_trans hpq h1) h2 h3
  exact ⟨i, hi, hf⟩

theorem isSuppressedWarningLoop_mono (s : String) (rest : List String) (p q : Nat)
    (hpq : p ≤ q) (h : isSuppressedWarningLoop s (some q) rest = true) :
    isSuppressedWarningLoop s (some p) rest = true := by
  induction rest generalizing p q with
  | nil => rfl
  | cons seg rest ih =>
    rw [isSuppressedWarningLoop] at h ⊢
    cases hq : indexOf s seg q with
    | none => rw [hq] at h; simp [isSuppressedWarningLoop] at h
    | some q' =>
      obtain ⟨p', hp', hf⟩ := indexOf_mono s seg p q q' hpq hq
      rw [hq] at h
      rw [hf]
      exact ih p' q' hp' h

theorem isSuppressedWarningLoop_remove (s : String) (pre post : List String) (x : String)
    (o : Option Nat) (h : isSuppressedWarningLoop s o (pre ++ x :: post) = true) :
    isSuppressedWarningLoop s o (pre ++ post) = true := by
  induction pre generalizing o with
  | nil =>
    cases o with
    | none => simp [isSuppressedWarningLoop] at h
    | some p =>
      rw [List.nil_append, isSuppressedWarningLoop] at h
      cases hq : indexOf s x p with
      | none => rw [hq] at h; simp [isSuppressedWarningLoop] at h
      | some q =>
        rw [hq] at h
        exact isSuppressedWarningLoop_mono s post p q (indexOf_some_spec s x p q hq).1 h
  | cons b pre ih =>
    cases o with
    | none => simp [isSuppressedWarningLoop] at h
    | some p =>
      rw [List.cons_append, isSuppressedWarningLoop] at h ⊢
      exact ih _ h

theorem matchesSegments_remove (s : String) (pre post : List String) (x : String)
    (hne : pre ++ post ≠ []) (h : matchesSegments s (pre ++ x :: post) = true) :
    matchesSegments s (pre ++ post) = true := by
  cases pre with
  | nil =>
    cases post with
    | nil => exact absurd rfl hne
    | cons y post =>
      rw [List.nil_append, matchesSegments] at h
      rw [List.nil_append, matchesSegments]
      cases hq : indexOf s x 0 with
      | none => rw [hq] at h; simp [isSuppressedWarningLoop] at h
      | some q =>
        rw [hq] at h
        have := isSuppressedWarningLoop_mono s (y :: post) 0 q (Nat.zero_le _) h
        rwa [isSuppressedWarningLoop] at this
  | cons a pre =>
    rw [List.cons_append, matchesSegments] at h ⊢
    exact isSuppressedWarningLoop_remove s pre post x _ h

theorem replaceChars_skip (before after : List Char) (k : Nat) (l : List Char) :
    replaceChars before after k l = replaceChars before after 0 (l.drop k) := by
  induction l generalizing k with
  | nil => cases k <;> simp [replaceChars]
  | cons c cs ih =>
    cases k with
    | zero => rfl
    | succ k => rw [replaceChars, ih k]; rfl

theorem replaceChars_at_occurrence (before after l : List Char) (hne : before ≠ [])
    (h : before <+: l) :
    replaceChars before after 0 l = after ++ replaceChars before after 0 (l.drop before.length) := by
  cases l with
  | nil => exact absurd (List.prefix_nil.1 h) hne
  | cons c cs =>
    rw [replaceChars, if_pos (List.isPrefixOf_iff_prefix.2 h), replaceChars_skip]
    have hlen : 0 < before.length := List.length_pos.2 hne
    have : (c :: cs).drop before.length = cs.drop (before.length - 1) := by
      obtain ⟨n, hn⟩ : ∃ n, before.length = n + 1 := ⟨before.length - 1, by omega⟩
      rw [hn]; rfl
    rw [this]

theorem replaceChars_at_other (before after : List Char) (c : Char) (cs : List Char)
    (h : ¬ before <+: c :: cs) :
    replaceChars before after 0 (c :: cs) = c :: replaceChars before after 0 cs := by
  rw [replaceChars, if_neg (fun hp => h (List.isPrefixOf_iff_prefix.1 hp))]

theorem replaceChars_occurrence_append (before after rest : List Char) (hne : before ≠ []) :
    replaceChars before after 0 (before ++ rest) = after ++ replaceChars before after 0 rest := by
  rw [replaceChars_at_occurrence before after _ hne (List.prefix_append _ _), List.drop_left]

/-- A prefix without ampersand of an escaped pattern is a prefix of the pattern. -/
theorem isPrefix_of_escaped (w q : List Char) (hw : '&' ∉ w)
    (h : w <+: replaceChars ['\\', '*'] placeHolder.data 0 q) : w <+: q := by
  induction w generalizing q with
  | nil => exact List.nil_prefix
  | cons a w ih =>
    simp only [List.mem_cons, not_or] at hw
    cases q with
    | nil => simp [replaceChars] at h
    | cons d q =>
      by_cases hB : ['\\', '*'] <+: d :: q
      · exfalso
        obtain ⟨t, ht⟩ := hB
        rw [← ht, replaceChars_occurrence_append _ _ _ (by decide)] at h
        have h' : a :: w <+: '&' :: ("place_holder_for_asterisk;".data ++
            replaceChars ['\\', '*'] placeHolder.data 0 t) := h
        exact hw.1 (List.cons_prefix_cons.1 h').1.symm
      · rw [replaceChars_at_other _ _ _ _ hB] at h
        obtain ⟨h1, h2⟩ := List.cons_prefix_cons.1 h
        subst h1
        exact List.cons_prefix_cons.2 ⟨rfl, ih q hw.2 h2⟩

theorem restore_escaped_aux (n : Nat) : ∀ p : List Char, p.length ≤ n →
    ¬ placeHolder.data <:+: p →
    replaceChars placeHolder.data ['*'] 0 (replaceChars ['\\', '*'] placeHolder.data 0 p)
      = replaceChars ['\\', '*'] ['*'] 0 p := by
  induction n with
  | zero =>
    intro p hp _
    have : p = [] := List.length_eq_zero.1 (Nat.le_zero.1 hp)
    subst this
    rfl
  | succ n ih =>
    intro p hp hS
    cases p with
    | nil => rfl
    | cons c cs =>
      by_cases hB : ['\\', '*'] <+: c :: cs
      · obtain ⟨t, ht⟩ := hB
        rw [← ht, replaceChars_occurrence_append _ _ _ (by decide),
          replaceChars_occurrence_append _ _ _ (by decide),
          replaceChars_occurrence_append _ _ _ (by decide)]
        have hlen : t.length ≤ n := by
          have := congrArg List.length ht
          simp only [List.length_append, List.length_cons, List.length_nil] at this
          simp only [List.length_cons] at hp
          omega
        have hSt : ¬ placeHolder.data <:+: t := by
          intro h
          apply hS
          rw [← ht]
          exact h.trans (List.suffix_append _ _).isInfix
        rw [ih t hlen hSt]
      · have hScs : ¬ placeHolder.data <:+: cs := fun h =>
          hS (List.infix_cons h)
        have hnp : ¬ placeHolder.data <+:
            c :: replaceChars ['\\', '*'] placeHolder.data 0 cs := by
          intro h
          have h' : '&' :: "place_holder_for_asterisk;".data <+:
              c :: replaceChars ['\\', '*'] placeHolder.data 0 cs := h
          obtain ⟨h1, h2⟩ := List.cons_prefix_cons.1 h'
          have h3 := isPrefix_of_escaped _ cs (by decide) h2
          apply hS
          have h4 : '&' :: "place_holder_for_asterisk;".data <+: c :: cs :=
            List.cons_prefix_cons.2 ⟨h1, h3⟩
          exact List.IsPrefix.isInfix h4
        rw [replaceChars_at_other _ _ _ _ hB, replaceChars_at_other _ _ _ _ hnp,
          replaceChars_at_other _ _ _ _ hB,
          ih cs (by simpa using hp) hScs]

theorem restore_escaped (p : List Char) (h : ¬ placeHolder.data <:+: p) :
    replaceChars placeHolder.data ['*'] 0 (replaceChars ['\\', '*'] placeHolder.data 0 p)
      = replaceChars ['\\', '*'] ['*'] 0 p :=
  restore_escaped_aux p.length p (Nat.le_refl _) h

theorem escaped_no_asterisk_aux (n : Nat) : ∀ p : List Char, p.length ≤ n →
    p.head? ≠ some '*' → p.Chain' (fun a b => b = '*' → a = '\\') →
    '*' ∉ replaceChars ['\\', '*'] placeHolder.data 0 p := by
  induction n with
  | zero =>
    intro p hp _ _
    have : p = [] := List.length_eq_zero.1 (Nat.le_zero.1 hp)
    subst this
    simp [replaceChars]
  | succ n ih =>
    intro p hp hh hc
    cases p with
    | nil => simp [replaceChars]
    | cons c cs =>
      by_cases hB : ['\\', '*'] <+: c :: cs
      · obtain ⟨t, ht⟩ := hB
        rw [← ht, replaceChars_occurrence_append _ _ _ (by decide)]
        have hlen : t.length ≤ n := by
          have := congrArg List.length ht
          simp only [List.length_append, List.length_cons, List.length_nil] at this
          simp only [List.length_cons] at hp
          omega
        rw [← ht] at hc
        have hc1 : List.Chain' (fun a b => b = '*' → a = '\\') ('*' :: t) := hc.tail
        have hht : t.head? ≠ some '*' := by
          cases t with
          | nil => simp
          | cons b t =>
            intro hb
            simp only [List.head?_cons, Option.some.injEq] at hb
            have := (List.chain'_cons.1 hc1).1 hb
            exact absurd this (by decide)
        rw [List.mem_append, not_or]
        exact ⟨by decide, ih t hlen hht hc1.tail⟩
      · rw [replaceChars_at_other _ _ _ _ hB]
        have hc0 : c ≠ '*' := by
          intro h
          apply hh
          rw [h]
          rfl
        have hhcs : cs.head? ≠ some '*' := by
          cases cs with
          | nil => simp
          | cons b cs =>
            intro hb
            simp only [List.head?_cons, Option.some.injEq] at hb
            have hcb := (List.chain'_cons.1 hc).1 hb
            apply hB
            rw [hcb, hb]
            exact List.prefix_append ['\\', '*'] cs
        rw [List.mem_cons, not_or]
        exact ⟨fun h => hc0 h.symm, ih cs (by simpa using hp) hhcs hc.tail⟩

theorem escaped_ne_nil (p : List Char) (h : p ≠ []) :
    replaceChars ['\\', '*'] placeHolder.data 0 p ≠ [] := by
  cases p with
  | nil => exact absurd rfl h
  | cons c cs =>
    by_cases hB : ['\\', '*'] <+: c :: cs
    · rw [replaceChars_at_occurrence _ _ _ (by decide) hB]
      exact fun hc => absurd (List.append_eq_nil.1 hc).1 (by decide)
    · rw [replaceChars_at_other _ _ _ _ hB]
      exact List.cons_ne_nil _ _

theorem findChars_isSome_iff (sub l : List Char) :
    (findChars sub l).isSome = true ↔ sub <:+: l := by
  induction l with
  | nil =>
    rw [findChars]
    cases sub <;> simp
  | cons c cs ih =>
    rw [findChars, List.infix_cons_iff]
    by_cases hp : sub.isPrefixOf (c :: cs) = true
    · rw [if_pos hp]
      simp [List.isPrefixOf_iff_prefix.1 hp]
    · rw [if_neg hp]
      have hp' : ¬ sub <+: c :: cs := fun h => hp (List.isPrefixOf_iff_prefix.2 h)
      simp only [Option.isSome_map', ih, hp', false_or]


theorem splitOn_asterisks (n : Nat) :
    (List.replicate n '*').splitOn '*' = List.replicate (n + 1) [] := by
  induction n with
  | zero => rfl
  | succ n ih =>
    rw [List.replicate_succ, List.splitOn, List.splitOnP_cons]
    simp only [beq_self_eq_true, if_true]
    rw [← List.splitOn, ih]
    rfl

theorem replaceChars_asterisks (n : Nat) :
    replaceChars ['\\', '*'] placeHolder.data 0 (List.replicate n '*') = List.replicate n '*' := by
  induction n with
  | zero => rfl
  | succ n ih =>
    rw [List.replicate_succ, replaceChars_at_other, ih]
    intro h
    have := (List.cons_prefix_cons.1 h).1
    exact absurd this (by decide)

theorem qReplace_data (s before after : String) (h : before.data ≠ []) :
    (qReplace s before after).data = replaceChars before.data after.data 0 s.data := by
  unfold qReplace
  rw [if_neg h]

theorem warningSegments_asterisks (n : Nat) :
    warningSegments ⟨List.replicate n '*'⟩ = [] := by
  unfold warningSegments splitSkipEmptyParts
  rw [qReplace_data _ _ _ (by decide)]
  show List.map _ (List.map String.mk (List.filter _
    (List.splitOn '*' (replaceChars ['\\', '*'] placeHolder.data 0 (List.replicate n '*'))))) = []
  rw [replaceChars_asterisks, splitOn_asterisks]
  simp

theorem matchesSegments_single (s seg : String) :
    matchesSegments s [seg] = true ↔ seg.data <:+: s.data := by
  rw [matchesSegments, ← findChars_isSome_iff]
  unfold indexOf
  rw [if_pos (Nat.zero_le _), List.drop_zero]
  cases findChars seg.data s.data <;> simp [isSuppressedWarningLoop]

theorem warningSegments_of_escaped (pattern : String) (hne : pattern ≠ "")
    (hEscaped : pattern.data.head? ≠ some '*' ∧
      pattern.data.Chain' (fun a b => b = '*' → a = '\\'))
    (hNoPlaceHolder : ¬ placeHolder.data <:+: pattern.data) :
    warningSegments pattern = [qReplace pattern "\\*" "*"] := by
  have hp : pattern.data ≠ [] := fun h => hne (String.ext h)
  have h1 := escaped_no_asterisk_aux pattern.data.length pattern.data (Nat.le_refl _)
    hEscaped.1 hEscaped.2
  have h2 := escaped_ne_nil pattern.data hp
  have h3 := restore_escaped pattern.data hNoPlaceHolder
  have hsplit : List.splitOn '*' (replaceChars ['\\', '*'] placeHolder.data 0 pattern.data)
      = [replaceChars ['\\', '*'] placeHolder.data 0 pattern.data] := by
    rw [List.splitOn]
    refine List.splitOnP_eq_single _ _ ?_
    intro x hx hc
    have : x = '*' := by simpa using hc
    rw [this] at hx
    exact h1 hx
  unfold warningSegments splitSkipEmptyParts
  rw [qReplace_data _ _ _ (by decide)]
  show List.map _ (List.map String.mk (List.filter _
    (List.splitOn '*' (replaceChars ['\\', '*'] placeHolder.data 0 pattern.data)))) = _
  rw [hsplit]
  have hf : List.filter (fun part : List Char => !part.isEmpty)
      [replaceChars ['\\', '*'] placeHolder.data 0 pattern.data]
      = [replaceChars ['\\', '*'] placeHolder.data 0 pattern.data] := by
    rw [List.filter_cons_of_pos]
    · rfl
    · cases hr : replaceChars ['\\', '*'] placeHolder.data 0 pattern.data with
      | nil => exact absurd hr h2
      | cons a l => rfl
  rw [hf]
  simp only [List.map_cons, List.map_nil, List.cons.injEq, and_true]
  apply String.ext
  rw [qReplace_data _ _ _ (by decide), qReplace_data _ _ _ (by decide)]
  exact h3

theorem QHash.contains_insert_same {V : Type} (h : QHash V) (k : String) (v : V) :
    (h.insert k v).contains k = true := by
  unfold QHash.insert
  by_cases hc : h.contains k = true
  · rw [if_pos hc]
    have hm : k ∈ h.items.map Prod.fst := by
      simpa [QHash.contains, QHash.keys] using hc
    obtain ⟨p, hp, hk⟩ := List.mem_map.1 hm
    have hm' : k ∈ (h.items.map (fun p => if p.1 = k then (p.1, v) else p)).map Prod.fst :=
      List.mem_map.2 ⟨(p.1, v), List.mem_map.2 ⟨p, hp, by simp [hk]⟩, hk⟩
    simpa [QHash.contains, QHash.keys] using hm'
  · rw [if_neg hc]
    simp [QHash.contains, QHash.keys]

/-! ## Lemmas on the remaining lookups and on the reachable states -/

theorem functionModificationsLoop_eq (signature : String)
    (mods lst : List FunctionModification) :
    functionModificationsLoop signature mods lst
      = lst ++ mods.filter (fun m => decide (m.signature = signature)) := by
  induction mods generalizing lst with
  | nil => simp [functionModificationsLoop]
  | cons m rest ih =>
    rw [functionModificationsLoop]
    by_cases h : m.signature = signature
    · rw [if_pos h, ih, List.filter_cons_of_pos (by simpa using h)]
      simp
    · rw [if_neg h, ih, List.filter_cons_of_neg (by simpa using h)]

theorem visibleChain_of_all_generated (e : TypeEntry)
    (h : ∀ a ∈ e.scopeChain, a.generateCode = true) : e.visibleChain = e.scopeChain := by
  unfold TypeEntry.visibleChain
  rw [List.takeWhile_eq_self_iff.2 (fun a ha => h a (List.mem_reverse.1 ha)), List.reverse_reverse]

theorem findPrimitiveTypeLoop_eq_some (l : List (Option TypeEntry)) (e : TypeEntry) :
    findPrimitiveTypeLoop l = some e ↔
      ∃ pre post, l = pre ++ some e :: post ∧
        (e.isPrimitive = true ∧ e.preferredTargetLangType = true) ∧
        ∀ y, some y ∈ pre → ¬ (y.isPrimitive = true ∧ y.preferredTargetLangType = true) := by
  induction l with
  | nil => simp [findPrimitiveTypeLoop]
  | cons x rest ih =>
    cases x with
    | none =>
      rw [findPrimitiveTypeLoop, ih]
      constructor
      · rintro ⟨pre, post, h1, h2, h3⟩
        exact ⟨none :: pre, post, by simp [h1], h2, by simpa using h3⟩
      · rintro ⟨pre, post, h1, h2, h3⟩
        cases pre with
        | nil => simp at h1
        | cons p pre =>
          simp only [List.cons_append, List.cons.injEq] at h1
          exact ⟨pre, post, h1.2, h2, fun y hy => h3 y (List.mem_cons_of_mem _ hy)⟩
    | some x =>
      rw [findPrimitiveTypeLoop]
      by_cases hx : (x.isPrimitive && x.preferredTargetLangType) = true
      · rw [if_pos hx]
        have hx' : x.isPrimitive = true ∧ x.preferredTargetLangType = true := by
          simpa using hx
        constructor
        · intro h
          cases h
          exact ⟨[], rest, rfl, hx', by simp⟩
        · rintro ⟨pre, post, h1, h2, h3⟩
          cases pre with
          | nil => simp at h1; rw [h1.1]
          | cons p pre =>
            simp only [List.cons_append, List.cons.injEq] at h1
            exact absurd hx' (h3 x (by rw [← h1.1]; exact List.mem_cons_self _ _))
      · rw [if_neg hx, ih]
        have hx' : ¬ (x.isPrimitive = true ∧ x.preferredTargetLangType = true) := by
          simpa using hx
        constructor
        · rintro ⟨pre, post, h1, h2, h3⟩
          refine ⟨some x :: pre, post, by simp [h1], h2, ?_⟩
          intro y hy
          rcases List.mem_cons.1 hy with h | h
          · cases h; exact hx'
          · exact h3 y h
        · rintro ⟨pre, post, h1, h2, h3⟩
          cases pre with
          | nil =>
            simp only [List.nil_append, List.cons.injEq, Option.some.injEq] at h1
            rw [h1.1] at hx'
            exact absurd h2 hx'
          | cons p pre =>
            simp only [List.cons_append, List.cons.injEq] at h1
            exact ⟨pre, post, h1.2, h2, fun y hy => h3 y (List.mem_cons_of_mem _ hy)⟩

theorem indexOfChars_eq_none (c : Char) (l : List Char) :
    indexOfChars c l = none ↔ c ∉ l := by
  induction l with
  | nil => simp [indexOfChars]
  | cons x xs ih =>
    rw [indexOfChars]
    by_cases h : x = c
    · simp [h]
    · rw [if_neg h, Option.map_eq_none', ih]
      simp [Ne.symm h]

theorem indexOfChars_eq_some (c : Char) (l : List Char) (p : Nat) :
    indexOfChars c l = some p ↔
      ∃ pre post, l = pre ++ c :: post ∧ pre.length = p ∧ c ∉ pre := by
  induction l generalizing p with
  | nil => simp [indexOfChars]
  | cons x xs ih =>
    rw [indexOfChars]
    by_cases h : x = c
    · rw [if_pos h]
      constructor
      · intro hp
        cases hp
        exact ⟨[], xs, by rw [h]; rfl, rfl, by simp⟩
      · rintro ⟨pre, post, h1, h2, h3⟩
        cases pre with
        | nil => simp at h2; rw [h2]
        | cons a pre =>
          simp only [List.cons_append, List.cons.injEq] at h1
          exact absurd (by rw [← h1.1, h]; exact List.mem_cons_self _ _) h3
    · rw [if_neg h]
      constructor
      · intro hp
        cases hi : indexOfChars c xs with
        | none => rw [hi] at hp; cases hp
        | some i =>
          rw [hi] at hp
          simp only [Option.map_some', Option.some.injEq] at hp
          obtain ⟨pre, post, h1, h2, h3⟩ := (ih i).1 hi
          refine ⟨x :: pre, post, by rw [h1]; rfl, by simp [h2, hp], ?_⟩
          simp only [List.mem_cons, not_or]
          exact ⟨fun hc => h hc.symm, h3⟩
      · rintro ⟨pre, post, h1, h2, h3⟩
        cases pre with
        | nil =>
          simp only [List.nil_append, List.cons.injEq] at h1
          exact absurd h1.1 h
        | cons a pre =>
          simp only [List.cons_append, List.cons.injEq] at h1
          simp only [List.mem_cons, not_or] at h3
          have := (ih pre.length).2 ⟨pre, post, h1.2, rfl, h3.2⟩
          rw [this]
          simp only [List.length_cons] at h2
          simp [h2]

theorem containerTemplateName_no_bracket (name : String) (h : '<' ∉ name.data) :
    containerTemplateName name = name := by
  unfold containerTemplateName indexOfChar
  rw [(indexOfChars_eq_none _ _).2 h]

theorem containerTemplateName_left (name : String) (p : Nat)
    (h : indexOfChar name '<' = some p) :
    containerTemplateName (left name p) = left name p := by
  apply containerTemplateName_no_bracket
  obtain ⟨pre, post, h1, h2, h3⟩ := (indexOfChars_eq_some _ _ _).1 h
  simp only [left, h1]
  rw [← h2, List.take_left]
  exact h3

theorem findTypes_addType (db : TypeDatabase) (e : TypeEntry) (k : String) :
    (db.addType e).findTypes k
      = if k = e.qualifiedCppName then db.findTypes k ++ [some e] else db.findTypes k := by
  unfold addType findTypes
  by_cases h : k = e.qualifiedCppName
  · rw [if_pos h, h]
    exact QHash.value_insert_same _ _ _ _
  · rw [if_neg h]
    exact QHash.value_insert_other _ _ _ _ _ h

theorem keyInvariant_addType (db : TypeDatabase) (e : TypeEntry)
    (h : ∀ k x, some x ∈ db.findTypes k → x.qualifiedCppName = k) :
    ∀ k x, some x ∈ (db.addType e).findTypes k → x.qualifiedCppName = k := by
  intro k x hx
  rw [findTypes_addType] at hx
  split at hx
  · rename_i hk
    rcases List.mem_append.1 hx with h1 | h1
    · exact h k x h1
    · simp only [List.mem_singleton, Option.some.injEq] at h1
      rw [h1, hk]
  · exact h k x hx

theorem keyInvariant_of_reachable (db : TypeDatabase) (h : Reachable db) :
    ∀ k x, some x ∈ db.findTypes k → x.qualifiedCppName = k := by
  induction h with
  | construct =>
    refine keyInvariant_addType _ _ (keyInvariant_addType _ _ ?_)
    intro k x hx
    simp [findTypes, TypeDatabase.empty, QHash.value] at hx
  | addType db e _ ih => exact keyInvariant_addType db e ih
  | parseFile fileExists parseDevice db filename generate _ _ ih1 ih2 =>
    intro k x hx
    unfold TypeDatabase.parseFile at hx
    simp only at hx
    split at hx
    · exact ih1 k x hx
    · split at hx
      · exact ih1 k x hx
      · exact ih2 k x hx
  | findTemplate db name _ ih => exact ih
  | addRequiredTargetImport db moduleName _ ih =>
    unfold TypeDatabase.addRequiredTargetImport
    split
    · exact ih
    · exact ih
  | _ => assumption

/-! ## The claims -/

/-- C1: `findType(name)` returns the first entry, in sequence order, of
`findTypes(name)` that is either not a primitive or a primitive flagged as the
preferred target-language type, and it is absent exactly when `findTypes(name)`
has no such entry; in particular when the name is not a key of the registry
and when every entry under it is a primitive that is not preferred. -/
theorem findType_first_accepted (db : TypeDatabase) (name : String) :
    (∀ e, db.findType name = some e ↔
      ∃ pre post, db.findTypes name = pre ++ some e :: post ∧
        (e.isPrimitive = false ∨ e.preferredTargetLangType = true) ∧
        ∀ y, some y ∈ pre → ¬ (y.isPrimitive = false ∨ y.preferredTargetLangType = true)) ∧
    (db.findType name = none ↔
      ∀ y, some y ∈ db.findTypes name →
        ¬ (y.isPrimitive = false ∨ y.preferredTargetLangType = true)) ∧
    (db.entries.contains name = false → db.findType name = none) ∧
    ((∀ y, some y ∈ db.findTypes name →
        y.isPrimitive = true ∧ y.preferredTargetLangType = false) →
      db.findType name = none) := by
  refine ⟨fun e => findTypeLoop_eq_some _ e, findTypeLoop_eq_none _, ?_, ?_⟩
  · intro hc
    unfold findType findTypes
    rw [QHash.value_of_not_contains _ _ _ hc]
    rfl
  · intro h
    refine (findTypeLoop_eq_none _).2 ?_
    intro y hy hc
    have := h y hy
    rcases hc with hc | hc
    · rw [this.1] at hc; cases hc
    · rw [this.2] at hc; cases hc

/-- C1 at a concrete registry: under the key `int` a primitive alias that is
not preferred comes first and the preferred primitive second; `findType`
returns the second, and it is absent for the unknown name `long`. -/
theorem findType_first_accepted_witness :
    aliasDb.findTypes "int"
      = [some (primitiveEntry "int" false), some (primitiveEntry "int" true)] ∧
    aliasDb.findType "int" = some (primitiveEntry "int" true) ∧
    aliasDb.findType "long" = none := by
  refine ⟨by decide, ?_, ?_⟩
  · exact ((findType_first_accepted aliasDb "int").1 _).2
      ⟨[some (primitiveEntry "int" false)], [], by decide, by decide,
        by intro y hy; simp at hy; subst hy; decide⟩
  · exact (findType_first_accepted aliasDb "long").2.2.1 (by decide)

/-- C2: `targetShortName()` (`TypeEntry::targetLangName`) is the empty string
when `generate` is false; otherwise it is the possibly renamed identifier,
prefixed by the parent's `targetShortName()` and a dot exactly when there is a
parent whose `targetShortName()` is non-empty. Hence, when no identifier of
the chain is empty, the name is the dot-join of the identifiers of the
trailing run of generated entities of the chain: every segment is the
identifier of a generated entity, a hidden scope gives no segment and no empty
segment. `ClassName` inside hidden `Nsp` yields `ClassName`, hidden `Nsp`
yields the empty string, and `ClassName` inside generated `Nsp` yields
`Nsp.ClassName`. -/
theorem targetLangName_omits_hidden_scopes (e : TypeEntry) :
    (e.generateCode = false → e.targetLangName = "") ∧
    (e.generateCode = true →
      (∀ p, e.enclosingScope = some p → p.targetLangName ≠ "" →
        e.targetLangName = p.targetLangName ++ "." ++ e.shortName) ∧
      ((∀ p, e.enclosingScope = some p → p.targetLangName = "") →
        e.targetLangName = e.shortName)) ∧
    ((∀ a ∈ e.scopeChain, a.shortName ≠ "") →
      e.targetLangName = String.intercalate "." (e.visibleChain.map TypeEntry.shortName)) ∧
    (∀ a ∈ e.visibleChain, a ∈ e.scopeChain ∧ a.generateCode = true) ∧
    (classInNsp false).targetLangName = "ClassName" ∧
    (nspEntry false).targetLangName = "" ∧
    (classInNsp true).targetLangName = "Nsp.ClassName" := by
  refine ⟨targetLangName_of_hidden e, ?_, targetLangName_eq_join e, mem_visibleChain e,
    by decide, by decide, by decide⟩
  intro hg
  cases e with
  | root d =>
    have hg' : d.generate = true := hg
    refine ⟨fun p hp => ?_, fun _ => ?_⟩
    · simp [TypeEntry.enclosingScope] at hp
    · simp [TypeEntry.targetLangName, hg']
  | nested q d =>
    have hg' : d.generate = true := hg
    constructor
    · intro p hp hne
      obtain rfl : q = p := by simpa [TypeEntry.enclosingScope] using hp
      rw [TypeEntry.targetLangName, if_pos hg', if_neg hne]
    · intro h
      rw [TypeEntry.targetLangName, if_pos hg', if_pos (h q rfl)]

/-- C2 at `ClassName` inside the hidden namespace `Nsp`: the class is
generated, its parent is hidden, the visible part of its chain is the class
alone, and its target name is the join of the single segment `ClassName`. -/
theorem targetLangName_omits_hidden_scopes_witness :
    (classInNsp false).generateCode = true ∧
    (classInNsp false).enclosingScope = some (nspEntry false) ∧
    (nspEntry false).generateCode = false ∧
    (classInNsp false).visibleChain = [classInNsp false] ∧
    (classInNsp false).targetLangName = String.intercalate "." ["ClassName"] :=
  ⟨by decide, by decide, by decide, by decide,
    (targetLangName_omits_hidden_scopes (classInNsp false)).2.2.1 (by decide)⟩

/-- C3: `qualifiedCppName()` is the `cppName` of every entity of the
enclosing-scope chain, root first and the entity itself last, joined by `::`;
hidden ancestors are included, so the value is the same whatever the
`generate` flags of the chain are. `ClassName` in `Nsp` is `Nsp::ClassName`
whether `Nsp` is generated or not, and four-level nesting gives
`A::B::C::D`. -/
theorem qualifiedCppName_joins_scope_chain (e : TypeEntry) :
    e.qualifiedCppName
      = String.intercalate "::" (e.scopeChain.map (fun a => a.data.cppName)) ∧
    (List.Chain' (fun a b => b.enclosingScope = some a) e.scopeChain ∧
      e.scopeChain.getLast? = some e ∧
      ∃ r, e.scopeChain.head? = some r ∧ r.enclosingScope = none) ∧
    (∀ p, e.enclosingScope = some p →
      e.qualifiedCppName = p.qualifiedCppName ++ "::" ++ e.data.cppName) ∧
    (e.enclosingScope = none → e.qualifiedCppName = e.data.cppName) ∧
    (∀ f : EntryData → Bool, (e.withGenerate f).qualifiedCppName = e.qualifiedCppName) ∧
    (classInNsp true).qualifiedCppName = "Nsp::ClassName" ∧
    (classInNsp false).qualifiedCppName = "Nsp::ClassName" ∧
    deepD.qualifiedCppName = "A::B::C::D" := by
  refine ⟨rfl, scopeChain_shape e, ?_, ?_, ?_, by decide, by decide, by decide⟩
  · intro p hp
    cases e with
    | root d => simp [TypeEntry.enclosingScope] at hp
    | nested q d =>
      obtain rfl : q = p := by simpa [TypeEntry.enclosingScope] using hp
      exact qualifiedCppName_nested q d
  · intro h
    cases e with
    | root d => rfl
    | nested q d => simp [TypeEntry.enclosingScope] at h
  · intro f
    unfold TypeEntry.qualifiedCppName
    rw [withGenerate_cppNames]

/-- C3 at `ClassName` inside `Nsp`: hiding every scope of the chain leaves the
qualified C++ name `Nsp::ClassName`. -/
theorem qualifiedCppName_joins_scope_chain_witness :
    (classInNsp true).enclosingScope = some (nspEntry true) ∧
    ((classInNsp true).withGenerate (fun _ => false)).generateCode = false ∧
    ((classInNsp true).withGenerate (fun _ => false)).qualifiedCppName = "Nsp::ClassName" :=
  ⟨by decide, by decide,
    ((qualifiedCppName_joins_scope_chain (classInNsp true)).2.2.2.2.1 (fun _ => false)).trans
      (by decide)⟩

/-- C4: `qualifiedTargetName()` (`TypeEntry::qualifiedTargetLangName`) is the
empty string when `targetShortName()` is; otherwise it is the package, a dot
and `targetShortName()`, or just `targetShortName()` when there is no package.
With package `Foo`: `ClassName` gives `Foo.ClassName`, `ClassName` in generated
`Nsp` gives `Foo.Nsp.ClassName`, `ClassName` in hidden `Nsp` gives
`Foo.ClassName`, and hidden `Nsp` gives the empty string. -/
theorem qualifiedTargetLangName_prefixes_package (e : TypeEntry) :
    (e.targetLangName = "" → ∀ package, e.qualifiedTargetLangName package = "") ∧
    (e.targetLangName ≠ "" →
      (∀ pkg, e.qualifiedTargetLangName (some pkg) = pkg ++ "." ++ e.targetLangName) ∧
      e.qualifiedTargetLangName none = e.targetLangName) ∧
    classEntry.qualifiedTargetLangName (some "Foo") = "Foo.ClassName" ∧
    (classInNsp true).qualifiedTargetLangName (some "Foo") = "Foo.Nsp.ClassName" ∧
    (classInNsp false).qualifiedTargetLangName (some "Foo") = "Foo.ClassName" ∧
    (nspEntry false).qualifiedTargetLangName (some "Foo") = "" := by
  refine ⟨?_, ?_, by decide, by decide, by decide, by decide⟩
  · intro h package
    simp only [TypeEntry.qualifiedTargetLangName, if_pos h]
  · intro h
    constructor
    · intro pkg
      simp only [TypeEntry.qualifiedTargetLangName, if_neg h]
    · simp only [TypeEntry.qualifiedTargetLangName, if_neg h]

/-- C4 at the four-level nesting of `testDeepClassNesting` with package `Foo`:
the target name of `D` is not empty and its qualified target name is the
package, a dot and that name. -/
theorem qualifiedTargetLangName_prefixes_package_witness :
    deepD.targetLangName = "A.B.C.D" ∧
    deepD.qualifiedTargetLangName (some "Foo") = "Foo" ++ "." ++ deepD.targetLangName ∧
    deepD.qualifiedTargetLangName none = deepD.targetLangName :=
  ⟨by decide,
    ((qualifiedTargetLangName_prefixes_package deepD).2.1 (by decide)).1 "Foo",
    ((qualifiedTargetLangName_prefixes_package deepD).2.1 (by decide)).2⟩

/-- C5: after `addType(e)` the sequence `findTypes(e.qualifiedCppName())` is
the previous sequence with `e` appended at its end, one element longer whatever
was stored under the key, and `findTypes(k)` is unchanged for every other key
`k`. -/
theorem addType_appends (db : TypeDatabase) (e : TypeEntry) :
    (db.addType e).findTypes e.qualifiedCppName
      = db.findTypes e.qualifiedCppName ++ [some e] ∧
    ((db.addType e).findTypes e.qualifiedCppName).length
      = (db.findTypes e.qualifiedCppName).length + 1 ∧
    (∀ k, k ≠ e.qualifiedCppName → (db.addType e).findTypes k = db.findTypes k) := by
  have h1 : (db.addType e).findTypes e.qualifiedCppName
      = db.findTypes e.qualifiedCppName ++ [some e] := by
    unfold addType findTypes
    exact QHash.value_insert_same _ _ _ _
  refine ⟨h1, by rw [h1]; simp, ?_⟩
  intro k hk
  unfold addType findTypes
  exact QHash.value_insert_other _ _ _ _ _ hk

/-- C5 at a registry that already stores `ClassName`: adding the same entity
again gives two entries under its key and leaves the key `Nsp` empty. -/
theorem addType_appends_witness :
    (TypeDatabase.construct.addType classEntry).findTypes "ClassName" = [some classEntry] ∧
    ((TypeDatabase.construct.addType classEntry).addType classEntry).findTypes
        classEntry.qualifiedCppName
      = [some classEntry] ++ [some classEntry] ∧
    ((TypeDatabase.construct.addType classEntry).addType classEntry).findTypes "Nsp" = [] :=
  ⟨by decide,
    (addType_appends (TypeDatabase.construct.addType classEntry) classEntry).1.trans (by decide),
    ((addType_appends (TypeDatabase.construct.addType classEntry) classEntry).2.2 "Nsp"
      (by decide)).trans (by decide)⟩

/-- C6, evaluated on the code: in the freshly constructed registry to which
the enum `Color` is added, `findType` resolves `Color` to that enum and
`findFlagsType` returns the same entity, whose kind is Enum and not Flags. The
result of `findType` is kept without a check of its kind. -/
theorem findFlagsType_returns_non_flags_entry :
    (TypeDatabase.construct.addType colorEnum).findType "Color" = some colorEnum ∧
    (TypeDatabase.construct.addType colorEnum).findFlagsType "Color" = some colorEnum ∧
    colorEnum.type = Kind.Enum ∧ colorEnum.isFlags = false := by
  decide

/-- C7: when `findType(name)` is absent and the flags index has no key equal
to `name` (and stores no null pointer), `findFlagsType(name)` is present if and
only if some key of the flags index ends with `name`, and the entity returned
is stored under a key that ends with `name`. -/
theorem findFlagsType_suffix_fallback (db : TypeDatabase) (name : String)
    (hType : db.findType name = none)
    (hKey : db.flagsEntries.contains name = false)
    (hNonNull : ∀ p ∈ db.flagsEntries.items, p.2 ≠ none) :
    ((db.findFlagsType name).isSome = true ↔
      ∃ k ∈ db.flagsEntries.keys, endsWith k name = true) ∧
    (∀ f, db.findFlagsType name = some f →
      ∃ k ∈ db.flagsEntries.keys, endsWith k name = true ∧
        db.flagsEntries.value k none = some f) := by
  have hv : db.flagsEntries.value name none = none :=
    QHash.value_of_not_contains _ _ _ hKey
  have hloop : db.findFlagsType name
      = findFlagsTypeLoop db.flagsEntries name db.flagsEntries.keys := by
    simp only [findFlagsType, hType, hv]
  rw [hloop]
  by_cases hex : ∃ k ∈ db.flagsEntries.keys, endsWith k name = true
  · obtain ⟨k, hk, he, hl⟩ := findFlagsTypeLoop_first_match db.flagsEntries name _ hex
    have hnn := QHash.value_ne_none_of_mem_keys db.flagsEntries k hNonNull hk
    constructor
    · rw [hl]
      exact ⟨fun _ => hex, fun _ => Option.isSome_iff_ne_none.2 hnn⟩
    · intro f hf
      exact ⟨k, hk, he, by rw [← hl, hf]⟩
  · have hno : ∀ k ∈ db.flagsEntries.keys, endsWith k name = false := by
      intro k hk
      cases hc : endsWith k name
      · rfl
      · exact absurd ⟨k, hk, hc⟩ hex
    rw [findFlagsTypeLoop_no_match _ _ _ hno]
    constructor
    · simp [hex]
    · intro f hf; cases hf

/-- C7 at the flags index holding `Qt::Alignment`: the name `Alignment` is
neither a type nor a key, it is a suffix of the key, and the lookup is
present. -/
theorem findFlagsType_suffix_fallback_witness :
    "Qt::Alignment" ∈ flagsDb.flagsEntries.keys ∧
    endsWith "Qt::Alignment" "Alignment" = true ∧
    ((flagsDb.findFlagsType "Alignment").isSome = true ↔
      ∃ k ∈ flagsDb.flagsEntries.keys, endsWith k "Alignment" = true) ∧
    flagsDb.findFlagsType "Alignment" = some alignmentFlags :=
  ⟨by decide, by decide,
    (findFlagsType_suffix_fallback flagsDb "Alignment" (by decide) (by decide) (by decide)).1,
    by decide⟩

/-- C8: round trip of flags resolution. When a flags entity `f` is stored in
the flags index under the key `K`, the name `n` is a suffix of `K` and of no
other key of the index, and neither `K` nor `n` resolves through `findType`,
then `findFlagsType(K)` and `findFlagsType(n)` both return `f`. -/
theorem findFlagsType_round_trip (db : TypeDatabase) (K n : String) (f : TypeEntry)
    (hStored : db.flagsEntries.value K none = some f)
    (hSuffix : endsWith K n = true)
    (hUnique : ∀ k ∈ db.flagsEntries.keys, endsWith k n = true → k = K)
    (hK : db.findType K = none)
    (hn : db.findType n = none) :
    db.findFlagsType K = some f ∧ db.findFlagsType n = some f := by
  have hKmem : K ∈ db.flagsEntries.keys := QHash.mem_keys_of_value_some _ _ _ hStored
  constructor
  · simp only [findFlagsType, hK, hStored]
  · cases hv : db.flagsEntries.value n none with
    | some g =>
      have hmem := QHash.mem_keys_of_value_some _ _ _ hv
      have hnK : n = K := hUnique n hmem (endsWith_self n)
      subst hnK
      simp only [findFlagsType, hn, hv]
      rw [← hv, hStored]
    | none =>
      obtain ⟨k, hk, he, hl⟩ :=
        findFlagsTypeLoop_first_match db.flagsEntries n _ ⟨K, hKmem, hSuffix⟩
      have hkK : k = K := hUnique k hk he
      subst hkK
      simp only [findFlagsType, hn, hv, hl, hStored]

/-- C8 at the flags index holding `Qt::Alignment`: the scoped name
`Qt::Alignment` and its suffix `Alignment` resolve to the same flags
entity. -/
theorem findFlagsType_round_trip_witness :
    flagsDb.findFlagsType "Qt::Alignment" = some alignmentFlags ∧
    flagsDb.findFlagsType "Alignment" = some alignmentFlags :=
  findFlagsType_round_trip flagsDb "Qt::Alignment" "Alignment" alignmentFlags
    (by decide) (by decide) (by decide) (by decide) (by decide)

/-- C9: `findComplexType`, `findObjectType`, `findNamespaceType` and
`findFunctionType` each return the entity `findType(name)` returns when it is
present and of the kind of the accessor (complex, object, namespace, function),
and are absent otherwise; each is a total function of the registry and the
name. -/
theorem kind_accessors_narrow_findType (db : TypeDatabase) (name : String) :
    db.findComplexType name = (db.findType name).filter TypeEntry.isComplex ∧
    db.findObjectType name = (db.findType name).filter TypeEntry.isObject ∧
    db.findNamespaceType name = (db.findType name).filter TypeEntry.isNamespace ∧
    db.findFunctionType name
      = (db.findType name).filter (fun e => decide (e.type = Kind.Function)) := by
  refine ⟨?_, ?_, ?_, ?_⟩
  · unfold findComplexType
    cases db.findType name <;> simp [Option.filter]
  · unfold findObjectType
    cases db.findType name <;> simp [Option.filter]
  · unfold findNamespaceType
    cases db.findType name <;> simp [Option.filter]
  · unfold findFunctionType
    cases db.findType name <;> simp [Option.filter]

/-- C9 at the registry holding the value type `ClassName`: the complex
accessor returns it, the object, namespace and function accessors are absent,
and every accessor is absent for an unknown name. -/
theorem kind_accessors_narrow_findType_witness :
    (TypeDatabase.construct.addType classEntry).findComplexType "ClassName" = some classEntry ∧
    (TypeDatabase.construct.addType classEntry).findObjectType "ClassName" = none ∧
    (TypeDatabase.construct.addType classEntry).findNamespaceType "ClassName" = none ∧
    (TypeDatabase.construct.addType classEntry).findFunctionType "ClassName" = none ∧
    (TypeDatabase.construct.addType classEntry).findComplexType "Other" = none :=
  ⟨(kind_accessors_narrow_findType (TypeDatabase.construct.addType classEntry)
        "ClassName").1.trans (by decide),
    by decide, by decide, by decide, by decide⟩

/-- C10: if the allow-list (rebuild classes) is non-empty, `isClassRejected`
holds exactly when the name is not in the allow-list, whatever the rule list
is; if the allow-list is empty, it holds exactly when some stored rule has its
class pattern equal to the name and its function, field and enum patterns all
equal to `*`. -/
theorem isClassRejected_allow_list_or_rules (db : TypeDatabase) (className : String) :
    (db.rebuildClasses ≠ [] →
      (db.isClassRejected className = true ↔ className ∉ db.rebuildClasses) ∧
      ∀ rules : List TypeRejection,
        ({ db with rejections := rules } : TypeDatabase).isClassRejected className
          = db.isClassRejected className) ∧
    (db.rebuildClasses = [] →
      (db.isClassRejected className = true ↔
        ∃ r ∈ db.rejections, r.class_name = className ∧ r.function_name = "*"
          ∧ r.field_name = "*" ∧ r.enum_name = "*")) ∧
    (∀ cls, cls ≠ [] →
      (db.setRebuildClasses cls).isClassRejected className = !cls.contains className) := by
  refine ⟨?_, ?_, ?_⟩
  · intro hne
    have hb : (!db.rebuildClasses.isEmpty) = true := by
      cases h : db.rebuildClasses with
      | nil => exact absurd h hne
      | cons a l => rfl
    refine ⟨?_, fun rules => ?_⟩
    · rw [isClassRejected, if_pos hb]
      simp
    · simp only [isClassRejected, if_pos hb]
  · intro he
    have hb : ¬ (!db.rebuildClasses.isEmpty) = true := by
      rw [he]; decide
    rw [isClassRejected, if_neg hb]
    exact isClassRejectedLoop_iff className db.rejections
  · intro cls hne
    have hb : (!(db.setRebuildClasses cls).rebuildClasses.isEmpty) = true := by
      cases cls with
      | nil => exact absurd rfl hne
      | cons a l => rfl
    rw [isClassRejected, if_pos hb]
    rfl

/-- C10 at concrete registries: with the rule rejecting class `A` entirely and
no allow-list, `A` is rejected and `B` is not; once the allow-list is `[A]`,
`A` is accepted and `B` rejected, the rule notwithstanding. -/
theorem isClassRejected_allow_list_or_rules_witness :
    (TypeDatabase.construct.addRejection "A" "*" "*" "*").isClassRejected "A" = true ∧
    (TypeDatabase.construct.addRejection "A" "*" "*" "*").isClassRejected "B" = false ∧
    (TypeDatabase.construct.addRejection "A" "f" "*" "*").isClassRejected "A" = false ∧
    ((TypeDatabase.construct.addRejection "A" "*" "*" "*").setRebuildClasses ["A"]).isClassRejected
        "A" = false ∧
    ((TypeDatabase.construct.addRejection "A" "*" "*" "*").setRebuildClasses ["A"]).isClassRejected
        "B" = true :=
  ⟨((isClassRejected_allow_list_or_rules
        (TypeDatabase.construct.addRejection "A" "*" "*" "*") "A").2.1 rfl).2
      ⟨⟨"A", "*", "*", "*"⟩, by decide, rfl, rfl, rfl, rfl⟩,
    by decide, by decide, by decide, by decide⟩

/-- C11: `isFunctionRejected(c, m)`, `isFieldRejected(c, m)` and
`isEnumRejected(c, m)` are true if and only if some stored rule has its
function (field, enum) pattern equal to `m` and its class pattern equal to `c`
or to `*`; the result depends neither on the allow-list nor on the order of
the rules. -/
theorem member_rejection_exact_or_wildcard_class (db : TypeDatabase) (c m : String) :
    (db.isFunctionRejected c m = true ↔
      ∃ r ∈ db.rejections, r.function_name = m ∧ (r.class_name = c ∨ r.class_name = "*")) ∧
    (db.isFieldRejected c m = true ↔
      ∃ r ∈ db.rejections, r.field_name = m ∧ (r.class_name = c ∨ r.class_name = "*")) ∧
    (db.isEnumRejected c m = true ↔
      ∃ r ∈ db.rejections, r.enum_name = m ∧ (r.class_name = c ∨ r.class_name = "*")) ∧
    (∀ cls : List String,
      (db.setRebuildClasses cls).isFunctionRejected c m = db.isFunctionRejected c m ∧
      (db.setRebuildClasses cls).isFieldRejected c m = db.isFieldRejected c m ∧
      (db.setRebuildClasses cls).isEnumRejected c m = db.isEnumRejected c m) ∧
    (∀ rules : List TypeRejection, rules.Perm db.rejections →
      ({ db with rejections := rules } : TypeDatabase).isFunctionRejected c m
        = db.isFunctionRejected c m ∧
      ({ db with rejections := rules } : TypeDatabase).isFieldRejected c m
        = db.isFieldRejected c m ∧
      ({ db with rejections := rules } : TypeDatabase).isEnumRejected c m
        = db.isEnumRejected c m) := by
  refine ⟨isFunctionRejectedLoop_iff c m _, isFieldRejectedLoop_iff c m _,
    isEnumRejectedLoop_iff c m _, fun cls => ⟨rfl, rfl, rfl⟩, ?_⟩
  intro rules hperm
  refine ⟨bool_eq_of_iff ?_, bool_eq_of_iff ?_, bool_eq_of_iff ?_⟩
  · simp only [isFunctionRejected, isFunctionRejectedLoop_iff]
    exact ⟨fun ⟨r, hr, hp⟩ => ⟨r, hperm.mem_iff.1 hr, hp⟩,
      fun ⟨r, hr, hp⟩ => ⟨r, hperm.mem_iff.2 hr, hp⟩⟩
  · simp only [isFieldRejected, isFieldRejectedLoop_iff]
    exact ⟨fun ⟨r, hr, hp⟩ => ⟨r, hperm.mem_iff.1 hr, hp⟩,
      fun ⟨r, hr, hp⟩ => ⟨r, hperm.mem_iff.2 hr, hp⟩⟩
  · simp only [isEnumRejected, isEnumRejectedLoop_iff]
    exact ⟨fun ⟨r, hr, hp⟩ => ⟨r, hperm.mem_iff.1 hr, hp⟩,
      fun ⟨r, hr, hp⟩ => ⟨r, hperm.mem_iff.2 hr, hp⟩⟩

/-- C11 at a registry with the rules `(A, f, x, E)` and `(*, g, y, F)`: the
function `f` of `A` is rejected by the first rule, the function `g` and the
enum `F` of any class by the second, and the field `x` of `B` by neither. -/
theorem member_rejection_exact_or_wildcard_class_witness :
    rulesDb.isFunctionRejected "A" "f" = true ∧
    rulesDb.isFunctionRejected "B" "g" = true ∧
    rulesDb.isFieldRejected "B" "x" = false ∧
    rulesDb.isEnumRejected "B" "F" = true :=
  ⟨(member_rejection_exact_or_wildcard_class rulesDb "A" "f").1.2
      ⟨⟨"A", "f", "x", "E"⟩, by decide, rfl, Or.inl rfl⟩,
    by decide, by decide, by decide⟩

/-- C12, evaluated on the code: the pattern `ab*ab` has the two segments `ab`
and `ab`, and the subject `ab`, two characters long, matches it: the second
segment is searched from the position of the first match and found in the
same text. The pattern `abc*bcd` likewise matches `abcd`, where the two
segments overlap. -/
theorem overlapping_segments_match :
    warningSegments "ab*ab" = ["ab", "ab"] ∧
    indexOf "ab" "ab" 0 = some 0 ∧
    "ab".length = 2 ∧
    (TypeDatabase.construct.addSuppressedWarning "ab*ab").isSuppressedWarning "ab" = true ∧
    warningSegments "abc*bcd" = ["abc", "bcd"] ∧
    indexOf "abcd" "abc" 0 = some 0 ∧ indexOf "abcd" "bcd" 0 = some 1 ∧
    (TypeDatabase.construct.addSuppressedWarning "abc*bcd").isSuppressedWarning "abcd" = true := by
  decide

/-- C13: a stored pattern that yields no segments never matches: when every
stored pattern has no segments, `isSuppressedWarning` is false for every
subject; the empty pattern and every pattern made only of asterisks yield no
segments. -/
theorem patterns_without_segments_never_match (db : TypeDatabase) (s : String)
    (h : ∀ w ∈ db.suppressedWarnings, warningSegments w = []) :
    db.isSuppressedWarning s = false ∧
    (∀ n : Nat, warningSegments ⟨List.replicate n '*'⟩ = []) ∧
    warningSegments "" = [] ∧ warningSegments "*" = [] ∧ warningSegments "***" = [] := by
  refine ⟨?_, warningSegments_asterisks, by decide, by decide, by decide⟩
  cases hb : db.isSuppressedWarning s
  · rfl
  · obtain ⟨_, w, hw, hm⟩ := (isSuppressedWarning_iff db s).1 hb
    rw [h w hw] at hm
    cases hm

/-- C13 at the registry storing the empty pattern, `*` and `***` with
suppression enabled: no warning is suppressed. -/
theorem patterns_without_segments_never_match_witness :
    (((TypeDatabase.construct.addSuppressedWarning "").addSuppressedWarning
        "*").addSuppressedWarning "***").suppressWarnings = true ∧
    (((TypeDatabase.construct.addSuppressedWarning "").addSuppressedWarning
        "*").addSuppressedWarning "***").isSuppressedWarning "any warning" = false :=
  ⟨by decide,
    (patterns_without_segments_never_match
      (((TypeDatabase.construct.addSuppressedWarning "").addSuppressedWarning
        "*").addSuppressedWarning "***") "any warning" (by decide)).1⟩

/-- C14, as stated, fails at a pattern without segments: `*` has no segments
and matches nothing, while `*a`, which adds the segment `a` to it, matches the
subject `a`. -/
theorem added_segment_widens_pattern_without_segments :
    warningSegments "*" = [] ∧
    warningSegments "*a" = warningSegments "*" ++ ["a"] ∧
    (TypeDatabase.construct.addSuppressedWarning "*a").isSuppressedWarning "a" = true ∧
    (TypeDatabase.construct.addSuppressedWarning "*").isSuppressedWarning "a" = false := by
  decide

/-- C14, amended: for every pattern `P` with at least one segment, every
segment `x` and every subject `s`, if a pattern whose segments are those of `P`
with `x` added at any place matches `s`, then `P` matches `s`. -/
theorem suppression_narrows_with_added_segment (db : TypeDatabase) (P P' s x : String)
    (pre post : List String)
    (hP : warningSegments P = pre ++ post)
    (hP' : warningSegments P' = pre ++ x :: post)
    (hSegments : warningSegments P ≠ [])
    (hMatch : ({ db with suppressedWarnings := [P'] } : TypeDatabase).isSuppressedWarning s
      = true) :
    ({ db with suppressedWarnings := [P] } : TypeDatabase).isSuppressedWarning s = true := by
  rw [isSuppressedWarning_iff] at hMatch ⊢
  obtain ⟨he, w, hw, hm⟩ := hMatch
  have hw' : w = P' := by simpa using hw
  subst hw'
  refine ⟨he, P, by simp, ?_⟩
  rw [hP'] at hm
  rw [hP] at hSegments ⊢
  exact matchesSegments_remove s pre post x hSegments hm

/-- C14, amended, at the patterns `unknown*type` and `unknown*base*type`: the
longer pattern matches `unknown baseclass type`, hence so does the shorter. -/
theorem suppression_narrows_with_added_segment_witness :
    warningSegments "unknown*type" = ["unknown"] ++ ["type"] ∧
    warningSegments "unknown*base*type" = ["unknown"] ++ "base" :: ["type"] ∧
    ({ TypeDatabase.construct with suppressedWarnings := ["unknown*base*type"] } :
      TypeDatabase).isSuppressedWarning "unknown baseclass type" = true ∧
    ({ TypeDatabase.construct with suppressedWarnings := ["unknown*type"] } :
      TypeDatabase).isSuppressedWarning "unknown baseclass type" = true :=
  ⟨by decide, by decide, by decide,
    suppression_narrows_with_added_segment TypeDatabase.construct "unknown*type"
      "unknown*base*type" "unknown baseclass type" "base" ["unknown"] ["type"]
      (by decide) (by decide) (by decide) (by decide)⟩

/-- C15, as stated, fails at the pattern `&place_holder_for_asterisk;`: it is
not empty and has no asterisk, a subject that contains it is not suppressed,
and the subject `2*3`, which does not contain it, is suppressed. -/
theorem place_holder_pattern_is_not_literal :
    placeHolder ≠ "" ∧ '*' ∉ placeHolder.data ∧
    qReplace placeHolder "\\*" "*" = placeHolder ∧
    (qReplace placeHolder "\\*" "*").data <:+: "see &place_holder_for_asterisk; here".data ∧
    (TypeDatabase.construct.addSuppressedWarning placeHolder).isSuppressedWarning
      "see &place_holder_for_asterisk; here" = false ∧
    ¬ (qReplace placeHolder "\\*" "*").data <:+: "2*3".data ∧
    (TypeDatabase.construct.addSuppressedWarning placeHolder).isSuppressedWarning "2*3"
      = true := by
  decide

/-- C15, amended: for every non-empty pattern in which every asterisk is
escaped (it is not the first character and the character before it is a
backslash) and which does not contain the text `&place_holder_for_asterisk;`,
with suppression enabled and that pattern the only one stored,
`isSuppressedWarning(s)` holds if and only if `s` contains, as a substring, the
pattern with every escaped asterisk replaced by an asterisk. -/
theorem escaped_asterisks_are_literal (db : TypeDatabase) (pattern s : String)
    (hEnabled : db.suppressWarnings = true)
    (hOnly : db.suppressedWarnings = [pattern])
    (hNonEmpty : pattern ≠ "")
    (hEscaped : pattern.data.head? ≠ some '*' ∧
      pattern.data.Chain' (fun a b => b = '*' → a = '\\'))
    (hNoPlaceHolder : ¬ placeHolder.data <:+: pattern.data) :
    db.isSuppressedWarning s = true ↔ (qReplace pattern "\\*" "*").data <:+: s.data := by
  rw [isSuppressedWarning_iff, hOnly, ← matchesSegments_single,
    ← warningSegments_of_escaped pattern hNonEmpty hEscaped hNoPlaceHolder]
  simp [hEnabled]

/-- C15, amended, at the pattern `a\*b`: it stands for the text `a*b`; the
subject `xa*by` is suppressed and the subject `xaby` is not. -/
theorem escaped_asterisks_are_literal_witness :
    qReplace "a\\*b" "\\*" "*" = "a*b" ∧
    ((TypeDatabase.construct.addSuppressedWarning "a\\*b").isSuppressedWarning "xa*by" = true ↔
      (qReplace "a\\*b" "\\*" "*").data <:+: "xa*by".data) ∧
    (TypeDatabase.construct.addSuppressedWarning "a\\*b").isSuppressedWarning "xa*by" = true ∧
    (TypeDatabase.construct.addSuppressedWarning "a\\*b").isSuppressedWarning "xaby" = false :=
  ⟨by decide,
    escaped_asterisks_are_literal (TypeDatabase.construct.addSuppressedWarning "a\\*b") "a\\*b"
      "xa*by" (by decide) (by decide) (by decide) ⟨by decide, by simp⟩ (by decide),
    by decide, by decide⟩

/-- C16: `isSuppressedWarning(s)` is true only when suppression is enabled and
some stored pattern matches `s`; it is false for every subject after
`setSuppressWarnings(false)`, and false for every subject when no pattern is
stored, as in the freshly constructed registry. -/
theorem isSuppressedWarning_needs_toggle_and_pattern (db : TypeDatabase) (s : String) :
    (db.isSuppressedWarning s = true ↔
      db.suppressWarnings = true ∧
        ∃ w ∈ db.suppressedWarnings, matchesSegments s (warningSegments w) = true) ∧
    (db.setSuppressWarnings false).isSuppressedWarning s = false ∧
    (db.suppressedWarnings = [] → db.isSuppressedWarning s = false) ∧
    TypeDatabase.construct.isSuppressedWarning s = false := by
  refine ⟨isSuppressedWarning_iff db s, rfl, ?_, ?_⟩
  · intro h
    cases hb : db.isSuppressedWarning s
    · rfl
    · obtain ⟨_, w, hw, _⟩ := (isSuppressedWarning_iff db s).1 hb
      rw [h] at hw
      cases hw
  · rfl

/-- C16 at the registry storing the pattern `unknown*type`: a matching
warning is suppressed while suppression is enabled, not after it is disabled,
and a warning that does not match is not suppressed. -/
theorem isSuppressedWarning_needs_toggle_and_pattern_witness :
    ((TypeDatabase.construct.addSuppressedWarning "unknown*type").isSuppressedWarning
        "unknown baseclass type" = true) ∧
    (((TypeDatabase.construct.addSuppressedWarning "unknown*type").setSuppressWarnings
        false).isSuppressedWarning "unknown baseclass type" = false) ∧
    ((TypeDatabase.construct.addSuppressedWarning "unknown*type").isSuppressedWarning
        "no such file" = false) :=
  ⟨(isSuppressedWarning_needs_toggle_and_pattern
        (TypeDatabase.construct.addSuppressedWarning "unknown*type")
        "unknown baseclass type").1.2 ⟨by decide, "unknown*type", by decide, by decide⟩,
    by decide, by decide⟩

/-- C17: with file existence a predicate on paths,
`modifiedTypesystemFilepath` returns the requested path when it exists;
otherwise the first search directory, in registration order, for which the
directory, a slash and the base name exists gives the result, the base name
being what follows the last slash of the requested path (the whole path when
it has no slash); when no directory qualifies the requested path is returned
unchanged. `addTypesystemPath` appends its directories after those already
registered. -/
theorem modifiedTypesystemFilepath_first_existing (fileExists : String → Bool)
    (db : TypeDatabase) (tsFile : String) :
    (fileExists tsFile = true → db.modifiedTypesystemFilepath fileExists tsFile = tsFile) ∧
    (fileExists tsFile = false →
      ∀ (pre post : List String) (d : String), db.typesystemPaths = pre ++ d :: post →
        (∀ d' ∈ pre, fileExists (d' ++ "/" ++ baseFileName tsFile) = false) →
        fileExists (d ++ "/" ++ baseFileName tsFile) = true →
        db.modifiedTypesystemFilepath fileExists tsFile = d ++ "/" ++ baseFileName tsFile) ∧
    (fileExists tsFile = false →
      (∀ d ∈ db.typesystemPaths, fileExists (d ++ "/" ++ baseFileName tsFile) = false) →
      db.modifiedTypesystemFilepath fileExists tsFile = tsFile) ∧
    ((∀ pre post : List Char, tsFile.data = pre ++ '/' :: post → '/' ∉ post →
        baseFileName tsFile = ⟨post⟩) ∧
      ('/' ∉ tsFile.data → baseFileName tsFile = tsFile)) ∧
    (∀ (pathSplitter : Char) (dirs : String),
      (db.addTypesystemPath pathSplitter dirs).typesystemPaths
        = db.typesystemPaths ++ splitKeepEmptyParts dirs pathSplitter) := by
  refine ⟨?_, ?_, ?_, ⟨baseFileName_after_last_slash tsFile, baseFileName_of_no_slash tsFile⟩,
    fun _ _ => rfl⟩
  · intro h
    simp [modifiedTypesystemFilepath, h]
  · intro h pre post d hp hpre hd
    simp only [modifiedTypesystemFilepath, h, Bool.not_false, if_true, hp]
    exact modifiedTypesystemFilepathLoop_first _ _ _ _ _ _ hpre hd
  · intro h hall
    simp only [modifiedTypesystemFilepath, h, Bool.not_false, if_true]
    exact modifiedTypesystemFilepathLoop_none _ _ _ _ hall

/-- C17 at the search list `/opt/ts`, `/usr/share/ts`: the requested
`src/typesystem_core.xml` does not exist, nor does it under `/opt/ts`; it is
resolved under `/usr/share/ts` with its base name. -/
theorem modifiedTypesystemFilepath_first_existing_witness :
    ((TypeDatabase.construct.addTypesystemPath ':' "/opt/ts:/usr/share/ts").typesystemPaths
      = ["/opt/ts", "/usr/share/ts"]) ∧
    baseFileName "src/typesystem_core.xml" = "typesystem_core.xml" ∧
    (TypeDatabase.construct.addTypesystemPath ':' "/opt/ts:/usr/share/ts").modifiedTypesystemFilepath
        sampleFiles "src/typesystem_core.xml"
      = "/usr/share/ts" ++ "/" ++ baseFileName "src/typesystem_core.xml" :=
  ⟨by decide, by decide,
    (modifiedTypesystemFilepath_first_existing sampleFiles
        (TypeDatabase.construct.addTypesystemPath ':' "/opt/ts:/usr/share/ts")
        "src/typesystem_core.xml").2.1 (by decide) ["/opt/ts"] [] "/usr/share/ts" (by decide)
      (by decide) (by decide)⟩

/-- C18, as stated, fails for a missing file: `missing.xml` resolves to
itself, `parseFile` returns false, and afterwards the memo does not hold the
path. -/
theorem parseFile_missing_file_is_not_memoized :
    TypeDatabase.construct.modifiedTypesystemFilepath sampleFiles "missing.xml"
      = "missing.xml" ∧
    (TypeDatabase.construct.parseFile sampleFiles sampleParser "missing.xml" true).1 = false ∧
    (TypeDatabase.construct.parseFile sampleFiles sampleParser "missing.xml"
      true).2.parsedTypesystemFiles.contains "missing.xml" = false := by
  decide

/-- C18, amended: every outcome of `parseFile(path)` that comes from the memo
or from parsing the file (success or parse failure) is memoized by resolved
path: when the resolved path is memoized or its file exists, after `parseFile`
returns the memo holds the resolved path with the returned boolean, and a
second `parseFile` that resolves the name to the same path returns the same
boolean from the memo, whatever the parser, and leaves the registry as it is.
A call answered from the memo does not change the registry. When the resolved
file is missing and not memoized, `parseFile` returns false and records
nothing. -/
theorem parseFile_memoizes_parsed_outcomes (fileExists : String → Bool)
    (parseDevice : String → Bool → TypeDatabase → Bool × TypeDatabase)
    (db : TypeDatabase) (filename : String) (generate : Bool) :
    ((db.parsedTypesystemFiles.contains (db.modifiedTypesystemFilepath fileExists filename)
          = true ∨
        fileExists (db.modifiedTypesystemFilepath fileExists filename) = true) →
      (db.parseFile fileExists parseDevice filename generate).2.parsedTypesystemFiles.contains
          (db.modifiedTypesystemFilepath fileExists filename) = true ∧
      (db.parseFile fileExists parseDevice filename generate).2.parsedTypesystemFiles.value
          (db.modifiedTypesystemFilepath fileExists filename) false
        = (db.parseFile fileExists parseDevice filename generate).1 ∧
      ∀ (parseDevice2 : String → Bool → TypeDatabase → Bool × TypeDatabase)
        (generate2 : Bool),
        (db.parseFile fileExists parseDevice filename generate).2.modifiedTypesystemFilepath
            fileExists filename
          = db.modifiedTypesystemFilepath fileExists filename →
        (db.parseFile fileExists parseDevice filename generate).2.parseFile fileExists
            parseDevice2 filename generate2
          = ((db.parseFile fileExists parseDevice filename generate).1,
              (db.parseFile fileExists parseDevice filename generate).2)) ∧
    (db.parsedTypesystemFiles.contains (db.modifiedTypesystemFilepath fileExists filename)
        = true →
      (db.parseFile fileExists parseDevice filename generate).2 = db) ∧
    (db.parsedTypesystemFiles.contains (db.modifiedTypesystemFilepath fileExists filename)
        = false →
      fileExists (db.modifiedTypesystemFilepath fileExists filename) = false →
      db.parseFile fileExists parseDevice filename generate = (false, db)) := by
  have hmemo : ∀ (d : TypeDatabase) (pd : String → Bool → TypeDatabase → Bool × TypeDatabase)
      (g : Bool),
      d.parsedTypesystemFiles.contains (d.modifiedTypesystemFilepath fileExists filename) = true →
      d.parseFile fileExists pd filename g
        = (d.parsedTypesystemFiles.value (d.modifiedTypesystemFilepath fileExists filename) false,
            d) := by
    intro d pd g hc
    simp only [parseFile, hc, if_true]
  have key : (db.parsedTypesystemFiles.contains (db.modifiedTypesystemFilepath fileExists filename)
          = true ∨
        fileExists (db.modifiedTypesystemFilepath fileExists filename) = true) →
      (db.parseFile fileExists parseDevice filename generate).2.parsedTypesystemFiles.contains
          (db.modifiedTypesystemFilepath fileExists filename) = true ∧
      (db.parseFile fileExists parseDevice filename generate).2.parsedTypesystemFiles.value
          (db.modifiedTypesystemFilepath fileExists filename) false
        = (db.parseFile fileExists parseDevice filename generate).1 := by
    intro h
    by_cases hc : db.parsedTypesystemFiles.contains
        (db.modifiedTypesystemFilepath fileExists filename) = true
    · rw [hmemo db parseDevice generate hc]
      exact ⟨hc, rfl⟩
    · have he : fileExists (db.modifiedTypesystemFilepath fileExists filename) = true := by
        rcases h with h | h
        · exact absurd h hc
        · exact h
      have hr : db.parseFile fileExists parseDevice filename generate
          = ((parseDevice (db.modifiedTypesystemFilepath fileExists filename) generate db).1,
            { (parseDevice (db.modifiedTypesystemFilepath fileExists filename) generate db).2 with
              parsedTypesystemFiles :=
                (parseDevice (db.modifiedTypesystemFilepath fileExists filename) generate
                  db).2.parsedTypesystemFiles.insert
                  (db.modifiedTypesystemFilepath fileExists filename)
                  (parseDevice (db.modifiedTypesystemFilepath fileExists filename) generate
                    db).1 }) := by
        simp only [parseFile, hc, he]
        simp
      rw [hr]
      exact ⟨QHash.contains_insert_same _ _ _, QHash.value_insert_same _ _ _ _⟩
  refine ⟨fun h => ⟨(key h).1, (key h).2, ?_⟩, ?_, ?_⟩
  · intro parseDevice2 generate2 hsame
    have hc := (key h).1
    rw [← hsame] at hc
    rw [hmemo _ parseDevice2 generate2 hc, hsame, (key h).2]
  · intro hc
    rw [hmemo db parseDevice generate hc]
  · intro hc he
    simp only [parseFile, hc, he]
    simp

/-- C18, amended, at the existing file `/usr/share/ts/typesystem_core.xml`:
the first call parses it with success and memoizes the path; a second call,
given a parser that would fail, returns true from the memo and the same
registry. -/
theorem parseFile_memoizes_parsed_outcomes_witness :
    (TypeDatabase.construct.parseFile sampleFiles sampleParser
      "/usr/share/ts/typesystem_core.xml" true).1 = true ∧
    (TypeDatabase.construct.parseFile sampleFiles sampleParser
      "/usr/share/ts/typesystem_core.xml" true).2.parsedTypesystemFiles.contains
        (TypeDatabase.construct.modifiedTypesystemFilepath sampleFiles
          "/usr/share/ts/typesystem_core.xml") = true ∧
    (TypeDatabase.construct.parseFile sampleFiles sampleParser
      "/usr/share/ts/typesystem_core.xml" true).2.parseFile sampleFiles
        (fun _ _ db => (false, db)) "/usr/share/ts/typesystem_core.xml" false
      = ((TypeDatabase.construct.parseFile sampleFiles sampleParser
            "/usr/share/ts/typesystem_core.xml" true).1,
          (TypeDatabase.construct.parseFile sampleFiles sampleParser
            "/usr/share/ts/typesystem_core.xml" true).2) :=
  ⟨by decide,
    ((parseFile_memoizes_parsed_outcomes sampleFiles sampleParser TypeDatabase.construct
      "/usr/share/ts/typesystem_core.xml" true).1 (Or.inr (by decide))).1,
    ((parseFile_memoizes_parsed_outcomes sampleFiles sampleParser TypeDatabase.construct
      "/usr/share/ts/typesystem_core.xml" true).1 (Or.inr (by decide))).2.2
      (fun _ _ db => (false, db)) false (by decide)⟩

/-- C19: for every registry state and every path whose resolved file does not
exist and is not memoized, `parseFile` returns false and leaves the registry as
it was, in particular its entries, flags index, templates, rejection rules,
function modifications and required imports. -/
theorem parseFile_missing_file_keeps_state (fileExists : String → Bool)
    (parseDevice : String → Bool → TypeDatabase → Bool × TypeDatabase)
    (db : TypeDatabase) (filename : String) (generate : Bool)
    (hMemo : db.parsedTypesystemFiles.contains
      (db.modifiedTypesystemFilepath fileExists filename) = false)
    (hMissing : fileExists (db.modifiedTypesystemFilepath fileExists filename) = false) :
    (db.parseFile fileExists parseDevice filename generate).1 = false ∧
    (db.parseFile fileExists parseDevice filename generate).2 = db ∧
    (db.parseFile fileExists parseDevice filename generate).2.entries = db.entries ∧
    (db.parseFile fileExists parseDevice filename generate).2.flagsEntries = db.flagsEntries ∧
    (db.parseFile fileExists parseDevice filename generate).2.templates = db.templates ∧
    (db.parseFile fileExists parseDevice filename generate).2.rejections = db.rejections ∧
    (db.parseFile fileExists parseDevice filename generate).2.functionMods = db.functionMods ∧
    (db.parseFile fileExists parseDevice filename generate).2.requiredTargetImports
      = db.requiredTargetImports := by
  have h : db.parseFile fileExists parseDevice filename generate = (false, db) := by
    simp only [parseFile, hMemo, hMissing]
    simp
  rw [h]
  exact ⟨rfl, rfl, rfl, rfl, rfl, rfl, rfl, rfl⟩

/-- C19 at the freshly constructed registry and the missing file
`missing.xml`: the call fails and returns the registry unchanged, while the
existing file is parsed with success. -/
theorem parseFile_missing_file_keeps_state_witness :
    (TypeDatabase.construct.parseFile sampleFiles sampleParser "missing.xml" true).1 = false ∧
    (TypeDatabase.construct.parseFile sampleFiles sampleParser "missing.xml" true).2
      = TypeDatabase.construct ∧
    (TypeDatabase.construct.parseFile sampleFiles sampleParser
      "/usr/share/ts/typesystem_core.xml" true).1 = true :=
  ⟨(parseFile_missing_file_keeps_state sampleFiles sampleParser TypeDatabase.construct
      "missing.xml" true (by decide) (by decide)).1,
    (parseFile_missing_file_keeps_state sampleFiles sampleParser TypeDatabase.construct
      "missing.xml" true (by decide) (by decide)).2.1,
    by decide⟩

/-- C20: after any sequence of `addRequiredTargetImport` calls on a fresh
registry, `requiredTargetImports()` has no duplicates, holds exactly the names
that were added, and lists them in the order of their first insertion; adding
a name already in the list leaves the registry unchanged, so the operation is
idempotent. -/
theorem requiredTargetImports_dedup_first_insertion (names : List String) :
    ((names.foldl addRequiredTargetImport TypeDatabase.construct).getRequiredTargetImports).Nodup ∧
    (∀ m, m ∈ (names.foldl addRequiredTargetImport TypeDatabase.construct).getRequiredTargetImports
      ↔ m ∈ names) ∧
    ((names.foldl addRequiredTargetImport
        TypeDatabase.construct).getRequiredTargetImports).Pairwise
      (fun a b => names.indexOf a < names.indexOf b) ∧
    (∀ (db : TypeDatabase) (m : String), m ∈ db.getRequiredTargetImports →
      db.addRequiredTargetImport m = db) ∧
    (∀ (db : TypeDatabase) (m : String),
      (db.addRequiredTargetImport m).addRequiredTargetImport m = db.addRequiredTargetImport m) := by
  obtain ⟨h1, h2, h3⟩ := foldl_addRequiredTargetImport_invariant names
  refine ⟨h1, h2, h3, addRequiredTargetImport_of_mem, ?_⟩
  intro db m
  refine addRequiredTargetImport_of_mem _ m ?_
  rw [requiredTargetImports_addRequiredTargetImport]
  split
  · assumption
  · simp

/-- C20 at the calls `QtCore`, `QtGui`, `QtCore`, `QtXml`, `QtGui`: the list
is `QtCore`, `QtGui`, `QtXml`, and adding `QtGui` once more changes
nothing. -/
theorem requiredTargetImports_dedup_first_insertion_witness :
    (["QtCore", "QtGui", "QtCore", "QtXml", "QtGui"].foldl addRequiredTargetImport
      TypeDatabase.construct).getRequiredTargetImports = ["QtCore", "QtGui", "QtXml"] ∧
    ((["QtCore", "QtGui", "QtCore", "QtXml", "QtGui"].foldl addRequiredTargetImport
      TypeDatabase.construct).addRequiredTargetImport "QtGui")
      = ["QtCore", "QtGui", "QtCore", "QtXml", "QtGui"].foldl addRequiredTargetImport
          TypeDatabase.construct :=
  ⟨by decide,
    (requiredTargetImports_dedup_first_insertion
      ["QtCore", "QtGui", "QtCore", "QtXml", "QtGui"]).2.2.2.1 _ "QtGui" (by decide)⟩

/-- C21: `functionModifications(s)` returns exactly the stored function
modifications whose signature is equal to `s`, each as often as it is stored
and in the order in which they were added, and the empty list when none has
that signature. -/
theorem functionModifications_exact_signature (db : TypeDatabase) (s : String) :
    db.functionModifications s
      = db.functionMods.filter (fun m => decide (m.signature = s)) ∧
    (∀ m, m ∈ db.functionModifications s ↔ m ∈ db.functionMods ∧ m.signature = s) ∧
    (∀ m, m.signature = s →
      (db.functionModifications s).count m = db.functionMods.count m) ∧
    (db.functionModifications s).Sublist db.functionMods ∧
    ((∀ m ∈ db.functionMods, m.signature ≠ s) → db.functionModifications s = []) ∧
    (∀ m : FunctionModification,
      (db.addGlobalUserFunctionModification m).functionModifications s
        = db.functionModifications s ++ if m.signature = s then [m] else []) ∧
    (∀ ms : List FunctionModification,
      (db.addGlobalUserFunctionModifications ms).functionModifications s
        = db.functionModifications s ++ ms.filter (fun m => decide (m.signature = s))) := by
  have h : ∀ d : TypeDatabase, d.functionModifications s
      = d.functionMods.filter (fun m => decide (m.signature = s)) := by
    intro d
    unfold functionModifications
    rw [functionModificationsLoop_eq]
    rfl
  refine ⟨h db, ?_, ?_, ?_, ?_, ?_, ?_⟩
  · intro m
    rw [h db, List.mem_filter]
    simp
  · intro m hm
    rw [h db, List.count_filter (by simpa using hm)]
  · rw [h db]
    exact List.filter_sublist _
  · intro hall
    rw [h db, List.filter_eq_nil_iff]
    intro m hm
    simpa using hall m hm
  · intro m
    rw [h, h db]
    simp only [addGlobalUserFunctionModification, List.filter_append]
    by_cases hm : m.signature = s
    · simp [hm]
    · simp [hm]
  · intro ms
    rw [h, h db]
    simp only [addGlobalUserFunctionModifications, List.filter_append]

/-- C21 at a registry with four modifications: the three stored for `f(int)`
are returned in the order of their addition, the one added twice appearing
twice; the freshly constructed registry returns the empty list. -/
theorem functionModifications_exact_signature_witness :
    modsDb.functionModifications "f(int)"
      = [{ signature := "f(int)", content := "rename" },
         { signature := "f(int)", content := "private" },
         { signature := "f(int)", content := "rename" }] ∧
    TypeDatabase.construct.functionModifications "f(int)" = [] :=
  ⟨by decide,
    (functionModifications_exact_signature TypeDatabase.construct "f(int)").2.2.2.2.1
      (by decide)⟩

/-- C22, evaluated on the code: in the freshly constructed registry the
template index has no key; `findTemplate` of the unknown name `Missing`
returns a null pointer and leaves the template index with the key `Missing`,
one entry larger than before. -/
theorem findTemplate_inserts_null_entry :
    TypeDatabase.construct.templates.keys = [] ∧
    (TypeDatabase.construct.findTemplate "Missing").1 = none ∧
    (TypeDatabase.construct.findTemplate "Missing").2.templates.keys = ["Missing"] ∧
    (TypeDatabase.construct.findTemplate "Missing").2.templates.size = 1 ∧
    (TypeDatabase.construct.findTemplate "Missing").2.templates
      ≠ TypeDatabase.construct.templates := by
  decide

/-- C23: `instance(true)` returns a newly constructed registry whatever the
previous one was: it holds exactly the two built-in entities, Void and Varargs,
and no rejection rules, allow-list, suppression patterns, flags, templates,
imports, search paths, memoized files, function modifications or added
functions; `instance(false)` returns an existing registry as it is, and
constructs one when there is none. -/
theorem getInstance_new_discards_state (prev : Option TypeDatabase) :
    getInstance true prev = (TypeDatabase.construct, some TypeDatabase.construct) ∧
    (TypeDatabase.construct.entries.items.map Prod.snd).flatten
      = [some voidTypeEntry, some varargsTypeEntry] ∧
    TypeDatabase.construct.rejections = [] ∧
    TypeDatabase.construct.rebuildClasses = [] ∧
    TypeDatabase.construct.suppressedWarnings = [] ∧
    TypeDatabase.construct.flagsEntries.items = [] ∧
    TypeDatabase.construct.templates.items = [] ∧
    TypeDatabase.construct.requiredTargetImports = [] ∧
    TypeDatabase.construct.typesystemPaths = [] ∧
    TypeDatabase.construct.parsedTypesystemFiles.items = [] ∧
    TypeDatabase.construct.functionMods = [] ∧
    TypeDatabase.construct.globalUserFunctions = [] ∧
    (∀ d : TypeDatabase, getInstance false (some d) = (d, some d)) ∧
    getInstance false none = (TypeDatabase.construct, some TypeDatabase.construct) := by
  refine ⟨?_, by decide, rfl, rfl, rfl, rfl, rfl, rfl, rfl, rfl, rfl, rfl, fun d => rfl, rfl⟩
  cases prev <;> rfl

/-- C23 at a previous registry with two rejection rules: the new instance has
none and is the constructed registry, while `instance(false)` returns the
previous registry with its rules. -/
theorem getInstance_new_discards_state_witness :
    (getInstance true (some rulesDb)).1.rejections = [] ∧
    (getInstance true (some rulesDb)).1 = TypeDatabase.construct ∧
    rulesDb.rejections ≠ [] ∧
    (getInstance false (some rulesDb)).1 = rulesDb :=
  ⟨by rw [(getInstance_new_discards_state (some rulesDb)).1]; rfl,
    by rw [(getInstance_new_discards_state (some rulesDb)).1],
    by decide, rfl⟩

/-- C24, as stated, fails for a nested entity: for `ClassName` in the generated
namespace `Nsp` the target names along the chain are `Nsp` and
`Nsp.ClassName`, whose join after the package `Foo` is
`Foo.Nsp.Nsp.ClassName`, while the qualified target name is
`Foo.Nsp.ClassName`. -/
theorem qualifiedTargetLangName_is_not_join_of_target_names :
    (classInNsp true).generateCode = true ∧
    (∀ a ∈ (classInNsp true).scopeChain, a.generateCode = true) ∧
    (classInNsp true).scopeChain.map TypeEntry.targetLangName = ["Nsp", "Nsp.ClassName"] ∧
    (classInNsp true).qualifiedTargetLangName (some "Foo") = "Foo.Nsp.ClassName" ∧
    "Foo" ++ "." ++
        String.intercalate "." ((classInNsp true).scopeChain.map TypeEntry.targetLangName)
      = "Foo.Nsp.Nsp.ClassName" ∧
    (classInNsp true).qualifiedTargetLangName (some "Foo") ≠
      "Foo" ++ "." ++
        String.intercalate "." ((classInNsp true).scopeChain.map TypeEntry.targetLangName) := by
  decide

/-- C24, amended: for every entity with `generate` true and no hidden
ancestor, the identifiers of the chain being non-empty, in a document with
package `P` the qualified target name is `P`, a dot and the dot-join of the
`shortName()` values (the possibly renamed identifiers) of the entities of the
scope chain from the root down to the entity; that join is its
`targetShortName()`. -/
theorem qualifiedTargetLangName_joins_short_names (e : TypeEntry) (P : String)
    (hGenerated : ∀ a ∈ e.scopeChain, a.generateCode = true)
    (hNames : ∀ a ∈ e.scopeChain, a.shortName ≠ "") :
    e.qualifiedTargetLangName (some P)
      = P ++ "." ++ String.intercalate "." (e.scopeChain.map TypeEntry.shortName) ∧
    e.targetLangName = String.intercalate "." (e.scopeChain.map TypeEntry.shortName) := by
  have hself := mem_scopeChain_self e
  have hne := targetLangName_ne_empty e (hGenerated e hself) (hNames e hself)
  have hjoin := targetLangName_eq_join e hNames
  rw [visibleChain_of_all_generated e hGenerated] at hjoin
  refine ⟨?_, hjoin⟩
  simp only [TypeEntry.qualifiedTargetLangName, if_neg hne]
  rw [hjoin]

/-- C24, amended, at the four-level nesting of `testDeepClassNesting`: the
identifiers along the chain are `A`, `B`, `C`, `D` and the qualified target
name of `D` with package `Foo` is `Foo.A.B.C.D`. -/
theorem qualifiedTargetLangName_joins_short_names_witness :
    deepD.scopeChain.map TypeEntry.shortName = ["A", "B", "C", "D"] ∧
    deepD.qualifiedTargetLangName (some "Foo")
      = "Foo" ++ "." ++ String.intercalate "." (deepD.scopeChain.map TypeEntry.shortName) ∧
    deepD.qualifiedTargetLangName (some "Foo") = "Foo.A.B.C.D" :=
  ⟨by decide,
    (qualifiedTargetLangName_joins_short_names deepD "Foo" (by decide) (by decide)).1,
    by decide⟩

/-- C25: when the only stored rule is `(c, *, *, *)`, which rejects the class
`c` when the allow-list is empty, the member checks for `c` and a member name
other than `*` are all false: the member patterns are compared as plain
text. -/
theorem class_rule_rejects_no_member (db : TypeDatabase) (c m : String)
    (hRule : db.rejections = [⟨c, "*", "*", "*"⟩])
    (hMember : m ≠ "*") :
    db.isFunctionRejected c m = false ∧
    db.isFieldRejected c m = false ∧
    db.isEnumRejected c m = false ∧
    (db.rebuildClasses = [] → db.isClassRejected c = true) := by
  have hm : ¬ ("*" = m) := fun h => hMember h.symm
  refine ⟨?_, ?_, ?_, ?_⟩
  · simp [isFunctionRejected, hRule, isFunctionRejectedLoop, hm]
  · simp [isFieldRejected, hRule, isFieldRejectedLoop, hm]
  · simp [isEnumRejected, hRule, isEnumRejectedLoop, hm]
  · intro h
    simp [isClassRejected, h, hRule, isClassRejectedLoop]

/-- C25 at the rule `(A, *, *, *)`: the class `A` is rejected, its member `f`
is rejected as function, field or enum by no check, and only the member name
`*` itself is. -/
theorem class_rule_rejects_no_member_witness :
    (TypeDatabase.construct.addRejection "A" "*" "*" "*").isClassRejected "A" = true ∧
    (TypeDatabase.construct.addRejection "A" "*" "*" "*").isFunctionRejected "A" "f" = false ∧
    (TypeDatabase.construct.addRejection "A" "*" "*" "*").isFieldRejected "A" "f" = false ∧
    (TypeDatabase.construct.addRejection "A" "*" "*" "*").isEnumRejected "A" "f" = false ∧
    (TypeDatabase.construct.addRejection "A" "*" "*" "*").isFunctionRejected "A" "*" = true :=
  ⟨by decide,
    (class_rule_rejects_no_member (TypeDatabase.construct.addRejection "A" "*" "*" "*") "A" "f"
      (by decide) (by decide)).1,
    (class_rule_rejects_no_member (TypeDatabase.construct.addRejection "A" "*" "*" "*") "A" "f"
      (by decide) (by decide)).2.1,
    (class_rule_rejects_no_member (TypeDatabase.construct.addRejection "A" "*" "*" "*") "A" "f"
      (by decide) (by decide)).2.2.1,
    by decide⟩

/-- C26: `findPrimitiveType(name)` returns the first entry of
`findTypes(name)` that is a primitive flagged as preferred target-language
type; it agrees with `findType(name)` whenever that is a primitive, and when
it is present `findType(name)` is present too, possibly with another entity:
under the key `X` holding a value type and then a preferred primitive,
`findType` returns the value type and `findPrimitiveType` the primitive. -/
theorem findPrimitiveType_scans_findTypes (db : TypeDatabase) (name : String) :
    (∀ e, db.findPrimitiveType name = some e ↔
      ∃ pre post, db.findTypes name = pre ++ some e :: post ∧
        (e.isPrimitive = true ∧ e.preferredTargetLangType = true) ∧
        ∀ y, some y ∈ pre → ¬ (y.isPrimitive = true ∧ y.preferredTargetLangType = true)) ∧
    (∀ e, db.findType name = some e → e.isPrimitive = true →
      db.findPrimitiveType name = some e) ∧
    (∀ e, db.findPrimitiveType name = some e → ∃ e', db.findType name = some e') ∧
    (mixedDb.findPrimitiveType "X" = some (primitiveEntry "X" true) ∧
      mixedDb.findType "X"
        = some (TypeEntry.root (mkData "X" (Kind.Complex ComplexKind.Value) true))) := by
  refine ⟨fun e => findPrimitiveTypeLoop_eq_some _ e, ?_, ?_, by decide⟩
  · intro e he hp
    obtain ⟨pre, post, h1, h2, h3⟩ := (findTypeLoop_eq_some _ e).1 he
    refine (findPrimitiveTypeLoop_eq_some _ e).2 ⟨pre, post, h1, ⟨hp, ?_⟩, ?_⟩
    · rcases h2 with h2 | h2
      · rw [hp] at h2; cases h2
      · exact h2
    · intro y hy hc
      exact h3 y hy (Or.inr hc.2)
  · intro e he
    obtain ⟨pre, post, h1, h2, _⟩ := (findPrimitiveTypeLoop_eq_some _ e).1 he
    cases hf : db.findType name with
    | some e' => exact ⟨e', rfl⟩
    | none =>
      exfalso
      have hnone := (findTypeLoop_eq_none _).1 hf
      exact hnone e (by rw [h1]; simp) (Or.inr h2.2)

/-- C26 at the key `int` holding an alias that is not preferred and then the
preferred primitive: `findType` and `findPrimitiveType` both return the
preferred one. -/
theorem findPrimitiveType_scans_findTypes_witness :
    aliasDb.findTypes "int"
      = [some (primitiveEntry "int" false), some (primitiveEntry "int" true)] ∧
    aliasDb.findType "int" = some (primitiveEntry "int" true) ∧
    aliasDb.findPrimitiveType "int" = some (primitiveEntry "int" true) :=
  ⟨by decide, by decide,
    (findPrimitiveType_scans_findTypes aliasDb "int").2.1 (primitiveEntry "int" true)
      (by decide) (by decide)⟩

/-- C27: for a name whose first `<` is at an index `p` greater than zero,
`findContainerType(name)` equals `findContainerType` of the first `p`
characters of the name; a name with no `<`, or with `<` at index zero, is
looked up as it is; and the result is always `findType` of the looked-up name
kept only when it is of kind Container. -/
theorem findContainerType_ignores_template_arguments (db : TypeDatabase) (name : String) :
    (∀ p, indexOfChar name '<' = some p → 0 < p →
      db.findContainerType name = db.findContainerType (left name p) ∧
      db.findContainerType name = (db.findType (left name p)).filter TypeEntry.isContainer) ∧
    ((indexOfChar name '<' = none ∨ indexOfChar name '<' = some 0) →
      db.findContainerType name = (db.findType name).filter TypeEntry.isContainer) ∧
    db.findContainerType name
      = (db.findType (containerTemplateName name)).filter TypeEntry.isContainer ∧
    (∀ p, indexOfChar name '<' = some p ↔
      ∃ pre post, name.data = pre ++ '<' :: post ∧ pre.length = p ∧ '<' ∉ pre) ∧
    (indexOfChar name '<' = none ↔ '<' ∉ name.data) := by
  have hfilter : ∀ n : String, db.findContainerType n
      = (db.findType (containerTemplateName n)).filter TypeEntry.isContainer := by
    intro n
    unfold findContainerType
    cases db.findType (containerTemplateName n) <;> simp [Option.filter]
  refine ⟨?_, ?_, hfilter name, fun p => indexOfChars_eq_some _ _ _,
    indexOfChars_eq_none _ _⟩
  · intro p hp hpos
    have h1 : containerTemplateName name = left name p := by
      simp only [containerTemplateName, hp, if_pos hpos]
    have h2 := containerTemplateName_left name p hp
    refine ⟨?_, ?_⟩
    · rw [hfilter name, hfilter (left name p), h1, h2]
    · rw [hfilter name, h1]
  · intro h
    have h1 : containerTemplateName name = name := by
      rcases h with h | h
      · simp only [containerTemplateName, h]
      · simp only [containerTemplateName, h, Nat.lt_irrefl, if_false]
    rw [hfilter name, h1]

/-- C27 at the registry holding the container `QList`: the name `QList<int>`
has its first `<` at index 5 and resolves like `QList`, to the container; the
name `<int>` is looked up as it is and is absent. -/
theorem findContainerType_ignores_template_arguments_witness :
    indexOfChar "QList<int>" '<' = some 5 ∧
    left "QList<int>" 5 = "QList" ∧
    (TypeDatabase.construct.addType qlistEntry).findContainerType "QList<int>"
      = (TypeDatabase.construct.addType qlistEntry).findContainerType (left "QList<int>" 5) ∧
    (TypeDatabase.construct.addType qlistEntry).findContainerType "QList<int>"
      = some qlistEntry ∧
    (TypeDatabase.construct.addType qlistEntry).findContainerType "<int>" = none :=
  ⟨by decide, by decide,
    ((findContainerType_ignores_template_arguments (TypeDatabase.construct.addType qlistEntry)
      "QList<int>").1 5 (by decide) (by decide)).1,
    by decide, by decide⟩

/-- C28, as stated, fails for `findContainerType`: in the reachable registry
holding the container `QList`, `findContainerType` called with `QList<int>`
returns the entity whose qualified C++ name is `QList`, not `QList<int>`. -/
theorem findContainerType_result_has_stripped_name :
    Reachable (TypeDatabase.construct.addType qlistEntry) ∧
    (TypeDatabase.construct.addType qlistEntry).findContainerType "QList<int>"
      = some qlistEntry ∧
    qlistEntry.qualifiedCppName = "QList" ∧
    qlistEntry.qualifiedCppName ≠ "QList<int>" :=
  ⟨Reachable.addType _ _ Reachable.construct, by decide, by decide, by decide⟩

/-- C28, amended: in every registry state reachable from the constructed one
by the public operations, every entity stored under the key `k` has qualified
C++ name `k`; hence every entity returned by `findTypes(k)`, `findType(k)`,
`findPrimitiveType(k)`, `findComplexType(k)`, `findObjectType(k)`,
`findNamespaceType(k)` or `findFunctionType(k)` has qualified C++ name `k`, and
every entity returned by `findContainerType(k)` has as qualified C++ name the
name that accessor looks up, `k` cut before its template arguments. -/
theorem reachable_registry_key_invariant (db : TypeDatabase) (h : Reachable db)
    (k : String) (e : TypeEntry) :
    (some e ∈ db.findTypes k → e.qualifiedCppName = k) ∧
    (db.findType k = some e → e.qualifiedCppName = k) ∧
    (db.findPrimitiveType k = some e → e.qualifiedCppName = k) ∧
    (db.findComplexType k = some e → e.qualifiedCppName = k) ∧
    (db.findObjectType k = some e → e.qualifiedCppName = k) ∧
    (db.findNamespaceType k = some e → e.qualifiedCppName = k) ∧
    (db.findFunctionType k = some e → e.qualifiedCppName = k) ∧
    (db.findContainerType k = some e → e.qualifiedCppName = containerTemplateName k) := by
  have hinv := keyInvariant_of_reachable db h
  have hft : ∀ n x, db.findType n = some x → x.qualifiedCppName = n := by
    intro n x hx
    obtain ⟨pre, post, h1, _, _⟩ := (findTypeLoop_eq_some _ x).1 hx
    exact hinv n x (by rw [h1]; simp)
  refine ⟨hinv k e, hft k e, ?_, ?_, ?_, ?_, ?_, ?_⟩
  · intro hx
    obtain ⟨pre, post, h1, _, _⟩ := (findPrimitiveTypeLoop_eq_some _ e).1 hx
    exact hinv k e (by rw [h1]; simp)
  · intro hx
    unfold findComplexType at hx
    cases hf : db.findType k with
    | none => rw [hf] at hx; cases hx
    | some x =>
      rw [hf] at hx
      simp only at hx
      split at hx
      · cases hx; exact hft k _ hf
      · cases hx
  · intro hx
    unfold findObjectType at hx
    cases hf : db.findType k with
    | none => rw [hf] at hx; cases hx
    | some x =>
      rw [hf] at hx
      simp only at hx
      split at hx
      · cases hx; exact hft k _ hf
      · cases hx
  · intro hx
    unfold findNamespaceType at hx
    cases hf : db.findType k with
    | none => rw [hf] at hx; cases hx
    | some x =>
      rw [hf] at hx
      simp only at hx
      split at hx
      · cases hx; exact hft k _ hf
      · cases hx
  · intro hx
    unfold findFunctionType at hx
    cases hf : db.findType k with
    | none => rw [hf] at hx; cases hx
    | some x =>
      rw [hf] at hx
      simp only at hx
      split at hx
      · cases hx; exact hft k _ hf
      · cases hx
  · intro hx
    unfold findContainerType at hx
    cases hf : db.findType (containerTemplateName k) with
    | none => rw [hf] at hx; cases hx
    | some x =>
      rw [hf] at hx
      simp only at hx
      split at hx
      · cases hx; exact hft _ _ hf
      · cases hx

/-- C28, amended, at the reachable registry holding the container `QList`:
`findType` of `QList` returns it and its qualified C++ name is `QList`, the
name looked up for `QList<int>`. -/
theorem reachable_registry_key_invariant_witness :
    (TypeDatabase.construct.addType qlistEntry).findType "QList" = some qlistEntry ∧
    qlistEntry.qualifiedCppName = "QList" ∧
    containerTemplateName "QList<int>" = "QList" :=
  ⟨by decide,
    (reachable_registry_key_invariant (TypeDatabase.construct.addType qlistEntry)
      (Reachable.addType _ _ Reachable.construct) "QList" qlistEntry).2.1 (by decide),
    by decide⟩

end ApiExtractor
